import Mathlib

/-!
Verification of the cdimage daily-tree publisher and live-build coordinator.

This file gives a shallow embedding, in Lean 4, of the parts of
`lib/cdimage/tree.py` (`DailyTreePublisher.mark_current`,
`DailyTreePublisher.purge`, `DailyTreePublisher.get_purge_data`,
`DailyTreePublisher.published_images`, `Tree.manifest_file_allowed`),
`lib/cdimage/livefs.py` (`run_live_builds` and its helpers) and
`lib/cdimage/build.py` (`build_image_set_locked`, `notify_failure`),
together with theorems about the published-tree "current" pointer,
retention (purge) behaviour, and build classification.

Modelling conventions for the publish tree:
  * The publish base directory is modelled by `TreeState`: a finite map
    from dated generation names to their flat file listings (`dirs`), the
    "current" pointer (`CurrentState`: absent, a symlink, or a directory
    of per-file symlinks), the "pending" and "manual" symlink targets,
    and the contents of each generation's `.marked_good` file.
  * Every entry listed in a generation directory is a regular file; every
    entry of a mixed "current" directory is a symbolic link, stored as
    the component list of its readlink target (`os.readlink(..).split(os.sep)`).
    Checksum and index files written by `polish_directory` never carry a
    manifest-allowed extension, so they are omitted from the model; the
    `.marked_good` file is tracked in its own field for the same reason.
  * Symlink resolution is closed-world: a relative link target resolves
    iff it has the shape `../<generation>/<entry>` with `<entry>` listed
    in `<generation>`; anything else (paths escaping the publish base,
    link chains inside "current") does not stat as a regular file.
  * A file's contents is represented by the result of Python's
    `content.split("\n")`, a bijective image of the content string: the
    last element is the partial line after the final newline ("" for a
    newline-terminated or empty file).
  * Python `dict`s are association lists in insertion order; iteration
    over Python `set`s is modelled in the (deterministic) order the
    elements were first produced.  File listings are read in directory
    order, which the model keeps as the stored listing order.
-/

namespace Cdimage

/-! ### Association lists (Python dict, insertion-ordered) -/

def alookup {α : Type} (m : List (String × α)) (k : String) : Option α :=
  (m.find? (fun p => p.1 == k)).map (fun p => p.2)

/-- `d[k] = v` on an insertion-ordered dict: overwrite in place, else append. -/
def insertAssoc {α : Type} (m : List (String × α)) (k : String) (v : α) :
    List (String × α) :=
  match m with
  | [] => [(k, v)]
  | p :: rest => if p.1 = k then (k, v) :: rest else p :: insertAssoc rest k v

/-! ### Character-level string primitives

Python's string operations, implemented by structural recursion over the
character list so that the kernel can evaluate them on concrete inputs. -/

/-- Python `str.split(c)` for a one-character separator:
    always non-empty, the last element is the tail after the last separator. -/
def splitChar (c : Char) : List Char → List (List Char)
  | [] => [[]]
  | x :: rest =>
    let r := splitChar c rest
    if x = c then [] :: r
    else
      match r with
      | h :: t => (x :: h) :: t
      | [] => [[x]]

/-- `"sep".join(parts)` for a one-character separator. -/
def joinChar (c : Char) : List String → String
  | [] => ""
  | [x] => x
  | x :: rest => x ++ String.mk [c] ++ joinChar c rest

/-- Python `s.endswith(t)`. -/
def strEndsWith (s t : String) : Bool := t.data.isSuffixOf s.data

/-- Python `s.startswith(t)`. -/
def strStartsWith (s t : String) : Bool := t.data.isPrefixOf s.data

/-- Byte/code-point lexicographic `<=`, as Python string comparison. -/
def charListLe : List Char → List Char → Bool
  | [], _ => true
  | _ :: _, [] => false
  | a :: as, b :: bs => if a < b then true else if b < a then false else charListLe as bs

def strLe (a b : String) : Bool := charListLe a.data b.data

/-- Decimal digit run to a number (`none` on empty or non-digit input). -/
def digitsToNatAux : List Char → Nat → Option Nat
  | [], acc => some acc
  | c :: rest, acc =>
    if c.isDigit then digitsToNatAux rest (acc * 10 + (c.toNat - 48)) else none

/-- Python `int(s)` restricted to optionally-negated decimal literals
    (generation names carry no sign, whitespace or underscores). -/
def pyIntStr (l : List Char) : Option Int :=
  match l with
  | [] => none
  | c :: rest =>
    if c = Char.ofNat 45 then
      match rest with
      | [] => none
      | _ => (digitsToNatAux rest 0).map (fun n => -(n : Int))
    else (digitsToNatAux l 0).map (fun n => (n : Int))

/-! ### The publish tree data model -/

/-- `os.pardir` on POSIX. -/
def pardir : String := ".."

/-- The configuration fields consulted by `published_images` and `mark_current`
    (`config.series`, `config.subproject`, `config.project`, `self.image_type`).
    An unset subproject is the empty string. -/
structure Config where
  series : String
  subproject : String
  project : String
  image_type : String
deriving Repr, DecidableEq

/-- The `current` entry of the publish directory: missing, a symlink whose
    readlink target is a string, or a directory whose entries are symlinks,
    each stored as the `os.sep`-split component list of its readlink target. -/
inductive CurrentState where
  | absent : CurrentState
  | link : String → CurrentState
  | dir : List (String × List String) → CurrentState
deriving Repr, DecidableEq

/-- The publish base directory for one project/image-type:
    dated generation directories with their file listings, the three special
    symlinks, and each generation's `.marked_good` file contents
    (stored as the `split("\n")` image of the content string). -/
structure TreeState where
  dirs : List (String × List String)
  current : CurrentState
  pending : Option String
  manual : Option String
  markedGood : List (String × List String)
deriving Repr, DecidableEq

/-- `osextras.listdir_force` of a generation directory: its listing, or `[]`
    when the directory does not exist. -/
def listingOf (dirs : List (String × List String)) (d : String) : List String :=
  (alookup dirs d).getD []

/-- `entry.split(".", 1)[0]`: the basename a published image shares with its
    sibling artifacts. -/
def baseOf (s : String) : String := String.mk ((splitChar (Char.ofNat 46) s.data).headD [])

/-- The extension test of `Tree.manifest_file_allowed` (the `os.stat` part is
    the model assumption that listed generation entries are regular files). -/
def manifestExtAllowed (e : String) : Bool :=
  strEndsWith e ".iso" || strEndsWith e ".img" || strEndsWith e ".img.gz" ||
  strEndsWith e ".img.xz" || strEndsWith e ".tar.gz" || strEndsWith e ".tar.xz" ||
  strEndsWith e ".wsl"

/-- The name filter of `DailyTreePublisher.published_images`. -/
def imageNameMatches (cfg : Config) (e : String) : Bool :=
  strStartsWith e (cfg.series ++ "-") ||
  (cfg.subproject == "wubi" && strEndsWith e ".tar.xz") ||
  ((cfg.project == "ubuntu-core" || cfg.project == "ubuntu-core-desktop" ||
      cfg.project == "ubuntu-appliance") &&
    cfg.image_type == "daily-live" && strEndsWith e ".img.xz")

/-- `DailyTreePublisher.published_images(d)` for a dated directory `d`. -/
def publishedImagesIn (cfg : Config) (dirs : List (String × List String))
    (d : String) : List String :=
  (listingOf dirs d).filter (fun e => manifestExtAllowed e && imageNameMatches cfg e)

/-- Whether `os.stat` on a mixed-directory entry with the given readlink
    components reaches a regular file (closed world: only `../<gen>/<entry>`
    resolves, to an existing listing entry). -/
def resolvesToFile (dirs : List (String × List String)) (bits : List String) : Bool :=
  match bits with
  | [p, d, e] => p == pardir && decide (e ∈ listingOf dirs d)
  | _ => false

/-- A mixed-directory entry that `published_images("current")` yields:
    allowed extension, resolving to a regular file, passing the name filter. -/
def currentEntryEligible (cfg : Config) (dirs : List (String × List String))
    (n : String) (bits : List String) : Bool :=
  manifestExtAllowed n && resolvesToFile dirs bits && imageNameMatches cfg n

/-- The shape `mark_current` asserts of a mixed-directory entry:
    exactly three components `[os.pardir, <date>, <entry name>]`. -/
def wellShapedBits (n : String) (bits : List String) : Bool :=
  match bits with
  | [p, _, e] => p == pardir && e == n
  | _ => false

/-- Second component of a three-component link target. -/
def bitsDate (bits : List String) : String :=
  match bits with
  | [_, d, _] => d
  | _ => ""

/-- Reading the existing current map out of a mixed "current" directory:
    iterate the eligible entries, assert each link's shape, record
    `entry -> target date`.  An assertion failure is `.error ()`. -/
def readCurrentMap (cfg : Config) (dirs : List (String × List String))
    (es : List (String × List String)) : Except Unit (List (String × String)) :=
  if (es.filter (fun p => currentEntryEligible cfg dirs p.1 p.2)).all
      (fun p => wellShapedBits p.1 p.2) then
    .ok ((es.filter (fun p => currentEntryEligible cfg dirs p.1 p.2)).map
      (fun p => (p.1, bitsDate p.2)))
  else .error ()

/-- `os.sep` as a character, for the `"/" not in target_date` test. -/
def sepChar : Char := ⟨47, by decide⟩

/-- The initial `existing` map of `mark_current`: read through a pure symlink
    (skipped if the target contains a path separator), read from a mixed
    directory with shape assertions, or empty when "current" is absent. -/
def existingPre (cfg : Config) (s : TreeState) : Except Unit (List (String × String)) :=
  match s.current with
  | .link t =>
    .ok (if t.data.contains sepChar then []
         else (publishedImagesIn cfg s.dirs t).map (fun e => (e, t)))
  | .dir es => readCurrentMap cfg s.dirs es
  | .absent => .ok []

/-- One arch test of the `mark_current` update loop. -/
def archMatches (cfg : Config) (imageBase arch : String) : Bool :=
  strEndsWith imageBase ("-" ++ arch) || (cfg.subproject == "wubi" && imageBase == arch)

/-- Whether an available image is (re)marked by this request. -/
def imageMatches (cfg : Config) (arches : List String) (image : String) : Bool :=
  arches.any (fun a => archMatches cfg (baseOf image) a)

/-- The `existing[image] = date` update loop over the available images. -/
def applyUpdate (cfg : Config) (arches : List String) (date : String)
    (avail : List String) (pre : List (String × String)) : List (String × String) :=
  avail.foldl (fun m image => if imageMatches cfg arches image then insertAssoc m image date else m) pre

/-- The `changed` set of the update loop, in the order images were added. -/
def changedOf (cfg : Config) (arches : List String) (avail : List String) : List String :=
  avail.filter (imageMatches cfg arches)

/-- The entries recorded in `.marked_good`: images mapped to the new date. -/
def goodList (date : String) (post : List (String × String)) : List String :=
  (post.filter (fun p => p.2 == date)).map Prod.fst

/-- Appending `entry + "\n"` to a file, on the `split("\n")` representation:
    the trailing partial line absorbs the entry, a fresh empty partial line
    follows. -/
def appendLine (L : List String) (e : String) : List String :=
  L.dropLast ++ [((L.getLast?).getD "") ++ e, ""]

/-- The `.marked_good` append loop: entries not among the lines read before
    the loop are appended. -/
def appendMarkedLines (L : List String) (good : List String) : List String :=
  good.foldl (fun acc e => if e ∈ L then acc else appendLine acc e) L

/-- Update of the generation's `.marked_good` file ("a+" creates it empty). -/
def updMarkedGood (mg : List (String × List String)) (date : String)
    (good : List String) : List (String × List String) :=
  insertAssoc mg date (appendMarkedLines ((alookup mg date).getD [""]) good)

/-- Python `set(a) == set(b)` on two listings. -/
def eqAsSets (a b : List String) : Bool :=
  a.all (fun x => decide (x ∈ b)) && b.all (fun x => decide (x ∈ a))

/-- The collapse test of `mark_current`:
    `set(existing) == available and set(existing.values()) == set([date])`. -/
def pureCond (avail : List String) (date : String) (post : List (String × String)) : Bool :=
  eqAsSets (post.map Prod.fst) avail && eqAsSets (post.map Prod.snd) [date]

/-- Relink into the mixed directory every entry of `d` sharing `image`'s
    basename (`osextras.symlink_force`). -/
def linkImage (dirs : List (String × List String)) (cur : List (String × List String))
    (d image : String) : List (String × List String) :=
  (listingOf dirs d).foldl
    (fun acc e => if baseOf e == baseOf image then insertAssoc acc e [pardir, d, e] else acc) cur

/-- The mixed-directory link loop over the images to relink. -/
def linkAll (dirs : List (String × List String)) (post : List (String × String))
    (used : List String) (cur : List (String × List String)) :
    List (String × List String) :=
  used.foldl (fun acc image => linkImage dirs acc ((alookup post image).getD "") image) cur

/-- Append to `self.checksum_dirs` every mapped date not already present. -/
def addCds (cds : List String) (post : List (String × String)) : List String :=
  post.foldl (fun acc p => if p.2 ∈ acc then acc else acc ++ [p.2]) cds

/-- The result of one `mark_current` call: the updated tree, the publisher's
    `checksum_dirs` list, and whether `polish_directory("current")` ran
    (its checksum/index artifacts are a deterministic function of the final
    mixed-directory contents and `checksum_dirs`, so they are captured by
    the other two fields). -/
structure MCOut where
  state : TreeState
  cds : List String
  polished : Bool
deriving Repr, DecidableEq

/-- `DailyTreePublisher.mark_current(date, arches)`, translated from
    `lib/cdimage/tree.py`.  `.error ()` is an assertion failure on a
    malformed mixed-directory entry. -/
def markCurrent (cfg : Config) (s : TreeState) (cds : List String) (date : String)
    (arches : List String) : Except Unit MCOut := do
  let avail := publishedImagesIn cfg s.dirs date
  let pre ← existingPre cfg s
  let post := applyUpdate cfg arches date avail pre
  let changed := changedOf cfg arches avail
  let mg := updMarkedGood s.markedGood date (goodList date post)
  if pureCond avail date post then
    .ok ⟨{ s with current := .link date, markedGood := mg }, cds, false⟩
  else
    let startUsed : List (String × List String) × List String :=
      match s.current with
      | .dir es => (es, changed)
      | _ => ([], post.map Prod.fst)
    let newCur : CurrentState := .dir (linkAll s.dirs post startUsed.2 startUsed.1)
    .ok ⟨{ s with current := newCur, markedGood := mg }, addCds cds post, true⟩

/-! ### Retention: `DailyTreePublisher.purge` and `get_purge_data` -/

/-- `posixpath.normpath` component folding, from the Python standard library
    (used by `purge` on the "manual" symlink target). -/
def normpathComps (initialSlashes : Nat) (comps : List String) : List String :=
  comps.foldl
    (fun acc comp =>
      if comp = "" ∨ comp = "." then acc
      else if comp ≠ ".." ∨ (initialSlashes = 0 ∧ acc = []) ∨
              (acc ≠ [] ∧ (acc.getLast?).getD "" = "..") then acc ++ [comp]
      else if acc ≠ [] then acc.dropLast
      else acc) []

/-- `posixpath.normpath`. -/
def normpath (path : String) : String :=
  if path = "" then "." else
  let initialSlashes : Nat :=
    if strStartsWith path "/" then
      (if strStartsWith path "//" && !(strStartsWith path "///") then 2 else 1)
    else 0
  let joined := joinChar sepChar
    (normpathComps initialSlashes ((splitChar sepChar path.data).map String.mk))
  let out := String.mk (List.replicate initialSlashes sepChar) ++ joined
  if out = "" then "." else out

/-- `int(entry.split(".", 1)[0])`, `none` when Python `int()` would raise. -/
def pyIntOfName (e : String) : Option Int := pyIntStr ((splitChar (Char.ofNat 46) e.data).headD [])

/-- `entry[0].isdigit()` (false on the empty string, which `os.listdir`
    never yields). -/
def firstCharDigit (e : String) : Bool :=
  match e.data with
  | c :: _ => c.isDigit
  | [] => false

/-- Insertion into a descending-sorted list (stable). -/
def insertDesc (x : String) : List String → List String
  | [] => [x]
  | y :: rest => if strLe y x then x :: y :: rest else y :: insertDesc x rest

/-- `sorted(entries, reverse=True)`. -/
def sortDesc (l : List String) : List String := l.foldr insertDesc []

/-- Python truthiness of an optional integer policy value
    (`not days` / `not count`). -/
def pyTruthy (o : Option Int) : Bool :=
  match o with
  | none => false
  | some n => n != 0

/-- The exemption tests of the purge loop: literal target of "pending",
    literal target of a pure "current" symlink, a well-shaped per-file link
    of a mixed "current" directory, or normalized target of "manual".
    (Non-link entries of a mixed directory are skipped by the `islink`
    test in the source; the model's mixed directories hold only links.) -/
def isReferencedEntry (s : TreeState) (g : String) : Bool :=
  (match s.pending with | some t => t == g | none => false) ||
  (match s.current with
   | .link t => t == g
   | .dir es => es.any (fun p => p.2 == [pardir, g, p.1])
   | .absent => false) ||
  (match s.manual with | some t => normpath t == g | none => false)

/-- The candidate walk of `purge`: numeric directories, newest first.
    The `pending`/`current`/`manual` entries and non-directory files fail the
    `isdir`/`entry[0].isdigit()` guards, so only dated directories remain. -/
def purgeCandidates (s : TreeState) : List String :=
  sortDesc ((s.dirs.map Prod.fst).filter firstCharDigit)

/-- The age half of the retention guard:
    `not days or oldest <= int(entry.split(".", 1)[0])` for a parsable name. -/
def ageOkAt (days : Option Int) (oldest : Int) (e : String) : Bool :=
  if pyTruthy days then decide (oldest ≤ (pyIntOfName e).getD 0) else true

/-- The count half of the retention guard:
    `not count or image_count <= count` (called with the incremented count). -/
def countOkAt (count : Option Int) (ic : Int) : Bool :=
  if pyTruthy count then decide (ic ≤ count.getD 0) else true

/-- The selection loop of `purge`: `ic` is `image_count`, `acc` the
    accumulated `to_purge` (in walk order); `.error ()` when `int()` raises
    on a non-numeric digit-initial name (only evaluated under an age policy,
    mirroring Python's short-circuit). -/
def purgeGo (s : TreeState) (days count : Option Int) (oldest : Int) :
    List String → Int → List String → Except Unit (List String)
  | [], _, acc => .ok acc
  | e :: rest, ic, acc =>
    if pyTruthy days && (pyIntOfName e).isNone then .error ()
    else if ageOkAt days oldest e && countOkAt count (ic + 1) then
      purgeGo s days count oldest rest (ic + 1) acc
    else if isReferencedEntry s e then purgeGo s days count oldest rest (ic + 1) acc
    else purgeGo s days count oldest rest (ic + 1) (acc ++ [e])

/-- The `to_purge` list computed by one `purge` run with resolved policies.
    `oldest` is `int(strftime("%Y%m%d", gmtime(now - 86400 * days)))`,
    passed in because the model has no clock. -/
def purgeScan (s : TreeState) (days count : Option Int) (oldest : Int) :
    Except Unit (List String) :=
  purgeGo s days count oldest (purgeCandidates s) 0 []

/-- `DailyTreePublisher.get_purge_data(key, purge_type)`: first matching
    non-comment `<key> <int>` line of `etc/<purge_type>`, `none` when the
    file is missing or no line matches.  The file is modelled already
    lexed into `(key, value)` pairs in line order. -/
def get_purge_data (file : Option (List (String × Int))) (key : String) : Option Int :=
  match file with
  | none => none
  | some tbl => (tbl.find? (fun p => p.1 == key)).map Prod.snd

/-- The `days`/`count` fallback chain of `purge`:
    project, then project/image-type, then image-type. -/
def resolvePolicy (file : Option (List (String × Int))) (project image_type : String) :
    Option Int :=
  match get_purge_data file project with
  | some v => some v
  | none =>
    match get_purge_data file (project ++ "/" ++ image_type) with
    | some v => some v
    | none => get_purge_data file image_type

inductive PurgeErr where
  | ambiguous : PurgeErr
  | badName : PurgeErr
deriving Repr, DecidableEq

/-- `DailyTreePublisher.purge()` with no explicit arguments, translated from
    `lib/cdimage/tree.py`: resolve both policies, return unchanged when
    neither is truthy, raise when both are, otherwise walk the candidates
    and delete the selected generations (`nopurge` models
    `DEBUG`/`CDIMAGE_NOPURGE`, under which the selection is only logged). -/
def purgeRun (s : TreeState) (daysFile countFile : Option (List (String × Int)))
    (project image_type : String) (oldest : Int) (nopurge : Bool) :
    Except PurgeErr (List String × TreeState) :=
  if !pyTruthy (resolvePolicy daysFile project image_type) &&
      !pyTruthy (resolvePolicy countFile project image_type) then .ok ([], s)
  else if pyTruthy (resolvePolicy daysFile project image_type) &&
      pyTruthy (resolvePolicy countFile project image_type) then .error .ambiguous
  else
    match purgeScan s (resolvePolicy daysFile project image_type)
        (resolvePolicy countFile project image_type) oldest with
    | .error _ => .error .badName
    | .ok l =>
      .ok (l, if nopurge then s
              else { s with dirs := s.dirs.filter (fun p => !(l.contains p.1)) })

/-! ### The build coordinator: `run_live_builds` (`lib/cdimage/livefs.py`) -/

/-- The observable fields of a Launchpad livefs build the polling loop
    consults: `buildstate` and `build_log_url`. -/
structure LPBuildSnapshot where
  buildstate : String
  build_log_url : Option String
deriving Repr, DecidableEq

/-- The four non-terminal Launchpad build states. -/
def lpPendingStates : List String :=
  ["Needs building", "Currently building", "Gathering build output", "Uploading build"]

/-- What one iteration of the polling loop decides for one Launchpad handle. -/
inductive PollDecision where
  | pending : Option Nat → PollDecision
  | finishedSuccess : PollDecision
  | finishedFailure : PollDecision
deriving Repr, DecidableEq

/-- The `elif` chain classifying one refreshed Launchpad build handle inside
    `run_live_builds`: non-terminal states stay pending; "Successfully built"
    finishes at once; otherwise a missing `build_log_url` is retried until a
    300-second deadline (`log_timeout`, set on first observation) passes;
    everything else finishes as a failure.  `now` is `time.time()`. -/
def pollClassify (b : LPBuildSnapshot) (log_timeout : Option Nat) (now : Nat) :
    PollDecision :=
  if b.buildstate ∈ lpPendingStates then .pending log_timeout
  else if b.buildstate == "Successfully built" then .finishedSuccess
  else if b.build_log_url = none ∧ (log_timeout = none ∨ now < log_timeout.getD 0) then
    .pending (some (match log_timeout with | none => now + 300 | some t => t))
  else .finishedFailure

/-- A Launchpad build record as seen by the reuse search:
    `distro_arch_series.architecture_tag`, the `subarch` key of
    `metadata_override` ("" when the override is absent, via the
    `AttributeError` handler), `buildstate`, and an identifier. -/
structure HistBuild where
  architecture_tag : String
  metadata_subarch : String
  buildstate : String
  ident : Nat
deriving Repr, DecidableEq

/-- The reuse search of `run_live_builds`: the first build of the livefs's
    history matching the cpu architecture tag and subarch and already
    "Successfully built". -/
def findReuse (builds : List HistBuild) (cpuarch subarch : String) : Option HistBuild :=
  builds.find? (fun b =>
    b.architecture_tag == cpuarch && b.metadata_subarch == subarch &&
    b.buildstate == "Successfully built")

/-- `split_arch`: split the livefs arch on the first "+" into cpu arch and
    subarch ("" when there is no "+"). -/
def splitArchBits (liveArch : String) : String × String :=
  match (splitChar (Char.ofNat 43) liveArch.data).map String.mk with
  | [] => ("", "")
  | [a] => (a, "")
  | a :: rest => (a, joinChar (Char.ofNat 43) rest)

/-- The environment `run_live_builds` runs in: which architectures build on
    Launchpad (`get_lp_livefs` non-`None`), the final state each build
    reaches, the livefs build history per architecture, the
    `CDIMAGE_REUSE_BUILD` flag, and the arch → livefs-arch mapping. -/
structure LiveEnv where
  isLP : String → Bool
  lpFinal : String → LPBuildSnapshot
  localExit : String → Int
  history : String → List HistBuild
  reuse : Bool
  livefsArchFor : String → String

inductive LiveErr where
  | noBuildsSucceeded : LiveErr
  | noReuseBuild : String → LiveErr
deriving Repr, DecidableEq

/-- How one architecture's build is obtained at dispatch time. -/
inductive Dispatch where
  | reused : HistBuild → Dispatch
  | requestedNew : Dispatch
  | localProc : Dispatch
deriving Repr, DecidableEq

/-- The dispatch step of `run_live_builds` for one architecture: on the
    Launchpad path with `CDIMAGE_REUSE_BUILD` set, search the build history
    and *raise* when nothing matches (the `for`/`else` branch); otherwise
    request a new build; non-Launchpad architectures start a local process. -/
def dispatchArch (env : LiveEnv) (arch : String) : Except LiveErr Dispatch :=
  if env.isLP arch then
    if env.reuse then
      match findReuse (env.history arch) (splitArchBits (env.livefsArchFor arch)).1
          (splitArchBits (env.livefsArchFor arch)).2 with
      | some b => .ok (.reused b)
      | none => .error (.noReuseBuild arch)
    else .ok .requestedNew
  else .ok .localProc

/-- The dispatch loop over all requested architectures. -/
def dispatchAll (env : LiveEnv) : List String → Except LiveErr Unit
  | [] => .ok ()
  | a :: rest =>
    match dispatchArch env a with
    | .error e => .error e
    | .ok _ => dispatchAll env rest

/-- Whether an architecture's build is eventually classified successful by
    the polling loop: a Launchpad build ends successful exactly when its
    terminal state is "Successfully built" (`pollClassify` finishes it at
    once; every other terminal state eventually reaches
    `finishedFailure`); a local build succeeds on exit status 0. -/
def buildSucceeds (env : LiveEnv) (arch : String) : Bool :=
  if env.isLP arch then (env.lpFinal arch).buildstate == "Successfully built"
  else env.localExit arch == 0

/-- `run_live_builds(config)`: dispatch every requested architecture, poll
    all handles to completion, collect `successful_builds`, and raise
    `LiveBuildsFailed` when it is empty.  Returns the keys of
    `successful_builds` in request order. -/
def run_live_builds (env : LiveEnv) (arches : List String) :
    Except LiveErr (List String) :=
  match dispatchAll env arches with
  | .error e => .error e
  | .ok _ =>
    let succ := arches.filter (buildSucceeds env)
    if succ.isEmpty then .error .noBuildsSucceeded else .ok succ

/-! ### The outermost driver: `build_image_set_locked` (`lib/cdimage/build.py`) -/

/-- An exception escaping the build-and-publish cycle; the driver only
    inspects `isinstance(e, LiveBuildsFailed)`. -/
structure BuildExc where
  isLiveBuildsFailed : Bool
deriving Repr, DecidableEq

/-- The configuration consulted by `notify_failure`. -/
structure NotifyCfg where
  debug : Bool
  nolog : Bool
  recipients : List String
deriving Repr, DecidableEq

/-- Whether `notify_failure` actually sends mail once invoked
    (it returns early under `DEBUG`/`CDIMAGE_NOLOG` or with no recipients). -/
def notify_failure_sends (c : NotifyCfg) : Bool :=
  !(c.debug || c.nolog) && !c.recipients.isEmpty

/-- The outcome of `build_image_set_locked`'s `try`/`except` given whether
    the body raised: `(return value, notify_failure invoked)`.  The handler
    logs the traceback, invokes `notify_failure` unless the exception is a
    `LiveBuildsFailed`, and returns `False`; a clean run returns `True`. -/
def build_image_set_locked_outcome (exc : Option BuildExc) : Bool × Bool :=
  match exc with
  | none => (true, false)
  | some e => (false, !e.isLiveBuildsFailed)

/-! ### Claim-side predicates and well-formedness -/

/-- A generation referenced by the publish pointers, the four ways the
    retention claim counts them: literal target of "pending", literal target
    of a pure "current" symlink, a well-shaped per-file link
    `../<generation>/<entry>` of a mixed "current" directory, or normalized
    target of "manual". -/
def ReferencedGen (s : TreeState) (g : String) : Prop :=
  s.pending = some g ∨
  s.current = .link g ∨
  (∃ es n, s.current = .dir es ∧ (n, [pardir, g, n]) ∈ es) ∨
  (∃ t, s.manual = some t ∧ normpath t = g)

/-- The post-update current map (`existing` after the per-arch overwrite)
    of a `mark_current` run, when reading the old map succeeds. -/
def markPost (cfg : Config) (s : TreeState) (date : String) (arches : List String) :
    Option (List (String × String)) :=
  match existingPre cfg s with
  | .ok pre => some (applyUpdate cfg arches date (publishedImagesIn cfg s.dirs date) pre)
  | .error _ => none

/-- Modelled from the spec claim: the mixed-directory form the claim
    describes — "a directory containing, for every image name in the map,
    per-file symlinks of the form `../<mapped-date>/<file>` covering exactly
    the files of that mapped date whose basename matches the image's
    basename". -/
def specMixedForm (dirs : List (String × List String)) (post : List (String × String))
    (E : List (String × List String)) : Prop :=
  (∀ p ∈ E, ∃ q ∈ post,
    baseOf p.1 = baseOf q.1 ∧ p.1 ∈ listingOf dirs q.2 ∧ p.2 = [pardir, q.2, p.1]) ∧
  (∀ q ∈ post, ∀ n ∈ listingOf dirs q.2,
    baseOf n = baseOf q.1 → (n, [pardir, q.2, n]) ∈ E)

/-- Basename consistency of a current map: images sharing a basename are
    mapped to the same date. -/
def BaseConsistent (m : List (String × String)) : Prop :=
  ∀ p ∈ m, ∀ q ∈ m, baseOf p.1 = baseOf q.1 → p.2 = q.2

/-- Filesystem well-formedness of a tree state: directory names and
    per-directory listings are duplicate-free, as are the entries of a mixed
    "current" directory and the tracked `.marked_good` files. -/
def WellFormedTree (s : TreeState) : Prop :=
  (s.dirs.map Prod.fst).Nodup ∧ (∀ p ∈ s.dirs, p.2.Nodup) ∧
  (∀ es, s.current = .dir es → (es.map Prod.fst).Nodup) ∧
  (s.markedGood.map Prod.fst).Nodup

/-- The `split("\n")` image of a newline-terminated or empty file: the
    trailing partial line is empty.  `mark_current` itself always leaves
    `.marked_good` in this shape. -/
def NTLines (L : List String) : Prop := L = [] ∨ L.getLast? = some ""

/-- The link the mixed-directory loop leaves for entry name `n`: the first
    image of the relink list whose basename matches and whose mapped date
    lists `n` determines the target (all such writes agree under the
    consistency hypotheses of the theorems below). -/
def writeTarget (dirs : List (String × List String)) (post : List (String × String))
    (used : List String) (n : String) : Option (List String) :=
  (used.find? (fun image => baseOf n == baseOf image &&
      decide (n ∈ listingOf dirs ((alookup post image).getD "")))).map
    (fun image => [pardir, (alookup post image).getD "", n])

/-- All relink writes directed at one entry name agree on the mapped date:
    the link loop's result is then order-independent. -/
def ConsistentWrites (dirs : List (String × List String))
    (post : List (String × String)) (used : List String) : Prop :=
  ∀ i ∈ used, ∀ j ∈ used, ∀ n : String,
    baseOf n = baseOf i → baseOf n = baseOf j →
    n ∈ listingOf dirs ((alookup post i).getD "") →
    n ∈ listingOf dirs ((alookup post j).getD "") →
    (alookup post i).getD "" = (alookup post j).getD ""

instance (m : List (String × String)) : Decidable (BaseConsistent m) :=
  decidable_of_iff (∀ p ∈ m, ∀ q ∈ m, baseOf p.1 = baseOf q.1 → p.2 = q.2) Iff.rfl

instance (dirs : List (String × List String)) (post : List (String × String))
    (E : List (String × List String)) : Decidable (specMixedForm dirs post E) :=
  decidable_of_iff
    ((∀ p ∈ E, ∃ q ∈ post,
        baseOf p.1 = baseOf q.1 ∧ p.1 ∈ listingOf dirs q.2 ∧ p.2 = [pardir, q.2, p.1]) ∧
      (∀ q ∈ post, ∀ n ∈ listingOf dirs q.2,
        baseOf n = baseOf q.1 → (n, [pardir, q.2, n]) ∈ E))
    Iff.rfl

/-! ### Concrete publish trees exercising `mark_current` -/

def cfgW : Config := ⟨"warty", "", "ubuntu", "daily-live"⟩

/-- A fresh tree: one generation, no "current" pointer yet. -/
def sW : TreeState :=
  { dirs := [("20130321", ["warty-live-amd64.iso"])]
    current := .absent
    pending := none
    manual := none
    markedGood := [] }

/-- The single-run output on `sW`: pure symlink collapse. -/
def mcW : MCOut :=
  ⟨{ dirs := [("20130321", ["warty-live-amd64.iso"])]
     current := .link "20130321"
     pending := none
     manual := none
     markedGood := [("20130321", ["warty-live-amd64.iso", ""])] },
   [], false⟩

/-- The older generation carries a sibling artifact (same basename, `.img`)
    that the newer generation lacks: the post-update map is not
    basename-consistent. -/
def sB : TreeState :=
  { dirs := [("20130320", ["warty-live-amd64.iso", "warty-live-amd64.img"]),
             ("20130321", ["warty-live-amd64.iso"])]
    current := .link "20130320"
    pending := none
    manual := none
    markedGood := [] }

/-- First-run output on `sB`: the `.img` relink overwrites the `.iso` link
    back to the old generation. -/
def mcB1 : MCOut :=
  ⟨{ dirs := [("20130320", ["warty-live-amd64.iso", "warty-live-amd64.img"]),
              ("20130321", ["warty-live-amd64.iso"])]
     current := .dir [("warty-live-amd64.iso", ["..", "20130320", "warty-live-amd64.iso"]),
                      ("warty-live-amd64.img", ["..", "20130320", "warty-live-amd64.img"])]
     pending := none
     manual := none
     markedGood := [("20130321", ["warty-live-amd64.iso", ""])] },
   ["20130321", "20130320"], true⟩

/-- Second-run output on `sB`: the `.iso` link now points at the new
    generation, differing from the first run. -/
def mcB2 : MCOut :=
  ⟨{ dirs := [("20130320", ["warty-live-amd64.iso", "warty-live-amd64.img"]),
              ("20130321", ["warty-live-amd64.iso"])]
     current := .dir [("warty-live-amd64.iso", ["..", "20130321", "warty-live-amd64.iso"]),
                      ("warty-live-amd64.img", ["..", "20130320", "warty-live-amd64.img"])]
     pending := none
     manual := none
     markedGood := [("20130321", ["warty-live-amd64.iso", ""])] },
   ["20130321", "20130320"], true⟩

/-- A tree whose `.marked_good` file is not newline-terminated. -/
def sD : TreeState :=
  { dirs := [("20130321", ["warty-live-amd64.iso"])]
    current := .absent
    pending := none
    manual := none
    markedGood := [("20130321", ["junk"])] }

/-- First-run output on `sD`: the appended image name fuses with the
    unterminated trailing line. -/
def mcD1 : MCOut :=
  ⟨{ dirs := [("20130321", ["warty-live-amd64.iso"])]
     current := .link "20130321"
     pending := none
     manual := none
     markedGood := [("20130321", ["junkwarty-live-amd64.iso", ""])] },
   [], false⟩

/-- Second-run output on `sD`: the fused line does not match the image name,
    so the name is appended a second time. -/
def mcD2 : MCOut :=
  ⟨{ dirs := [("20130321", ["warty-live-amd64.iso"])]
     current := .link "20130321"
     pending := none
     manual := none
     markedGood := [("20130321", ["junkwarty-live-amd64.iso", "warty-live-amd64.iso", ""])] },
   [], false⟩

/-- A mixed "current" directory holding an i386 image of the older
    generation while the amd64 image moves to the newer one. -/
def sM : TreeState :=
  { dirs := [("20130320", ["warty-live-i386.iso"]),
             ("20130321", ["warty-live-amd64.iso"])]
    current := .dir [("warty-live-i386.iso", ["..", "20130320", "warty-live-i386.iso"])]
    pending := none
    manual := none
    markedGood := [] }

/-- The run output on `sM`: a mixed directory mapping each architecture to
    its own generation. -/
def mcM : MCOut :=
  ⟨{ dirs := [("20130320", ["warty-live-i386.iso"]),
              ("20130321", ["warty-live-amd64.iso"])]
     current := .dir [("warty-live-i386.iso", ["..", "20130320", "warty-live-i386.iso"]),
                      ("warty-live-amd64.iso", ["..", "20130321", "warty-live-amd64.iso"])]
     pending := none
     manual := none
     markedGood := [("20130321", ["warty-live-amd64.iso", ""])] },
   ["20130320", "20130321"], true⟩

/-- The post-update current map of the run on `sM`. -/
def postM : List (String × String) :=
  [("warty-live-i386.iso", "20130320"), ("warty-live-amd64.iso", "20130321")]

/-- A mixed "current" directory with a stale `.manifest` link (an entry that
    is not a published image) alongside the per-architecture image links. -/
def sC : TreeState :=
  { dirs := [("20130320", ["warty-live-amd64.iso", "warty-live-amd64.manifest",
                           "warty-live-i386.iso"]),
             ("20130321", ["warty-live-amd64.iso"])]
    current := .dir [("warty-live-amd64.iso", ["..", "20130320", "warty-live-amd64.iso"]),
                     ("warty-live-amd64.manifest",
                       ["..", "20130320", "warty-live-amd64.manifest"]),
                     ("warty-live-i386.iso", ["..", "20130320", "warty-live-i386.iso"])]
    pending := none
    manual := none
    markedGood := [] }

/-- The mixed-directory contents after the run on `sC`: the stale manifest
    link survives, still aimed at the old generation. -/
def mapC : List (String × List String) :=
  [("warty-live-amd64.iso", ["..", "20130321", "warty-live-amd64.iso"]),
   ("warty-live-amd64.manifest", ["..", "20130320", "warty-live-amd64.manifest"]),
   ("warty-live-i386.iso", ["..", "20130320", "warty-live-i386.iso"])]

/-- The run output on `sC`. -/
def mcC : MCOut :=
  ⟨{ dirs := [("20130320", ["warty-live-amd64.iso", "warty-live-amd64.manifest",
                            "warty-live-i386.iso"]),
              ("20130321", ["warty-live-amd64.iso"])]
     current := .dir mapC
     pending := none
     manual := none
     markedGood := [("20130321", ["warty-live-amd64.iso", ""])] },
   ["20130321", "20130320"], true⟩

/-- The post-update current map of the run on `sC`. -/
def postC : List (String × String) :=
  [("warty-live-amd64.iso", "20130321"), ("warty-live-i386.iso", "20130320")]

/-! ### Association-list lemmas -/

theorem alookup_nil {α : Type} (k : String) : alookup ([] : List (String × α)) k = none := rfl

theorem alookup_cons {α : Type} (a : String) (v : α) (m : List (String × α)) (k : String) :
    alookup ((a, v) :: m) k = if a = k then some v else alookup m k := by
  by_cases h : a = k
  · have hb : ((a, v).1 == k) = true := by simp [h]
    simp [alookup, List.find?_cons, hb, h]
  · have hb : ((a, v).1 == k) = false := by simp [h]
    simp [alookup, List.find?_cons, hb, h]

theorem insertAssoc_cons {α : Type} (a : String) (w : α) (rest : List (String × α))
    (k : String) (v : α) :
    insertAssoc ((a, w) :: rest) k v =
      if a = k then (k, v) :: rest else (a, w) :: insertAssoc rest k v := by
  by_cases h : a = k
  · simp [insertAssoc, h]
  · simp [insertAssoc, h]

theorem alookup_insertAssoc {α : Type} (m : List (String × α)) (k : String) (v : α)
    (n : String) :
    alookup (insertAssoc m k v) n = if n = k then some v else alookup m n := by
  induction m with
  | nil =>
    show alookup [(k, v)] n = _
    rw [alookup_cons, alookup_nil]
    by_cases h : n = k
    · rw [if_pos h.symm, if_pos h]
    · rw [if_neg (fun hh => h hh.symm), if_neg h]
  | cons p rest ih =>
    obtain ⟨a, w⟩ := p
    rw [insertAssoc_cons]
    by_cases hak : a = k
    · subst hak
      rw [if_pos rfl, alookup_cons, alookup_cons]
      by_cases hn : n = a
      · rw [if_pos hn.symm, if_pos hn]
      · rw [if_neg (fun hh => hn hh.symm), if_neg hn, if_neg (fun hh => hn hh.symm)]
    · rw [if_neg hak, alookup_cons, alookup_cons, ih]
      by_cases hn : a = n
      · subst hn
        rw [if_pos rfl, if_neg (fun hh => hak hh), if_pos rfl]
      · rw [if_neg hn, if_neg hn]

theorem mem_insertAssoc {α : Type} {m : List (String × α)} {k : String} {v : α}
    {q : String × α} (h : q ∈ insertAssoc m k v) : q ∈ m ∨ q = (k, v) := by
  induction m with
  | nil =>
    have : q ∈ [(k, v)] := h
    right; simpa using this
  | cons p rest ih =>
    obtain ⟨a, w⟩ := p
    rw [insertAssoc_cons] at h
    by_cases hak : a = k
    · rw [if_pos hak] at h
      rcases List.mem_cons.mp h with h | h
      · right; exact h
      · left; exact List.mem_cons_of_mem _ h
    · rw [if_neg hak] at h
      rcases List.mem_cons.mp h with h | h
      · left; exact h ▸ List.mem_cons_self _ _
      · rcases ih h with h | h
        · left; exact List.mem_cons_of_mem _ h
        · right; exact h

theorem keys_insertAssoc {α : Type} (m : List (String × α)) (k : String) (v : α)
    (n : String) :
    n ∈ (insertAssoc m k v).map Prod.fst ↔ n = k ∨ n ∈ m.map Prod.fst := by
  induction m with
  | nil =>
    show n ∈ [(k, v)].map Prod.fst ↔ _
    simp
  | cons p rest ih =>
    obtain ⟨a, w⟩ := p
    rw [insertAssoc_cons]
    by_cases hak : a = k
    · rw [if_pos hak]
      subst hak
      simp only [List.map_cons, List.mem_cons]
      tauto
    · rw [if_neg hak]
      simp only [List.map_cons, List.mem_cons]
      rw [ih]
      tauto

theorem nodup_keys_insertAssoc {α : Type} {m : List (String × α)} (k : String) (v : α)
    (h : (m.map Prod.fst).Nodup) : ((insertAssoc m k v).map Prod.fst).Nodup := by
  induction m with
  | nil =>
    show ([(k, v)].map Prod.fst).Nodup
    simp
  | cons p rest ih =>
    obtain ⟨a, w⟩ := p
    simp only [List.map_cons, List.nodup_cons] at h
    rw [insertAssoc_cons]
    by_cases hak : a = k
    · rw [if_pos hak]
      simp only [List.map_cons, List.nodup_cons]
      exact ⟨hak ▸ h.1, h.2⟩
    · rw [if_neg hak]
      simp only [List.map_cons, List.nodup_cons]
      refine ⟨?_, ih h.2⟩
      intro hmem
      rcases (keys_insertAssoc rest k v a).mp hmem with h1 | h1
      · exact hak h1
      · exact h.1 h1

theorem insertAssoc_self {α : Type} {m : List (String × α)} {k : String} {v : α}
    (hnd : (m.map Prod.fst).Nodup) (hmem : (k, v) ∈ m) : insertAssoc m k v = m := by
  induction m with
  | nil => cases hmem
  | cons p rest ih =>
    obtain ⟨a, w⟩ := p
    simp only [List.map_cons, List.nodup_cons] at hnd
    rw [insertAssoc_cons]
    rcases List.mem_cons.mp hmem with h | h
    · have ha : a = k := (Prod.mk.injEq _ _ _ _ |>.mp h.symm).1
      have hw : w = v := (Prod.mk.injEq _ _ _ _ |>.mp h.symm).2
      rw [if_pos ha, ha, hw]
    · have hk : ¬ a = k := by
        intro hpk
        exact hnd.1 (hpk ▸ List.mem_map.mpr ⟨(k, v), h, rfl⟩)
      rw [if_neg hk, ih hnd.2 h]

theorem mem_of_alookup_eq_some {α : Type} {m : List (String × α)} {k : String} {v : α}
    (h : alookup m k = some v) : (k, v) ∈ m := by
  induction m with
  | nil => simp [alookup_nil] at h
  | cons p rest ih =>
    obtain ⟨a, w⟩ := p
    rw [alookup_cons] at h
    by_cases hak : a = k
    · subst hak
      simp at h
      simp [h]
    · rw [if_neg hak] at h
      exact List.mem_cons_of_mem _ (ih h)

theorem alookup_eq_some_of_mem {α : Type} {m : List (String × α)} {k : String} {v : α}
    (hnd : (m.map Prod.fst).Nodup) (h : (k, v) ∈ m) : alookup m k = some v := by
  induction m with
  | nil => cases h
  | cons p rest ih =>
    obtain ⟨a, w⟩ := p
    simp only [List.map_cons, List.nodup_cons] at hnd
    rcases List.mem_cons.mp h with h1 | h1
    · cases h1
      rw [alookup_cons, if_pos rfl]
    · rw [alookup_cons]
      by_cases hak : a = k
      · exfalso
        exact hnd.1 (hak ▸ List.mem_map.mpr ⟨(k, v), h1, rfl⟩)
      · rw [if_neg hak]
        exact ih hnd.2 h1

theorem alookup_isSome_iff {α : Type} (m : List (String × α)) (k : String) :
    (alookup m k).isSome = true ↔ k ∈ m.map Prod.fst := by
  induction m with
  | nil => simp [alookup_nil]
  | cons p rest ih =>
    obtain ⟨a, w⟩ := p
    rw [alookup_cons]
    by_cases hak : a = k
    · subst hak
      simp
    · simp only [if_neg hak, List.map_cons, List.mem_cons, ih]
      constructor
      · intro h; right; exact h
      · rintro (h | h)
        · exact absurd h.symm hak
        · exact h

theorem alookup_eq_none_iff {α : Type} (m : List (String × α)) (k : String) :
    alookup m k = none ↔ k ∉ m.map Prod.fst := by
  rw [← alookup_isSome_iff]
  cases alookup m k <;> simp

theorem alookup_map_value {α β : Type} (m : List (String × α)) (f : α → β) (k : String) :
    alookup (m.map (fun p => (p.1, f p.2))) k = (alookup m k).map f := by
  induction m with
  | nil => simp [alookup_nil]
  | cons p rest ih =>
    obtain ⟨a, w⟩ := p
    simp only [List.map_cons]
    rw [alookup_cons, alookup_cons]
    by_cases hak : a = k
    · simp [hak]
    · simp [hak, ih]

theorem alookup_map_const {α : Type} (l : List String) (c : α) (k : String) :
    alookup (l.map (fun e => (e, c))) k = if k ∈ l then some c else none := by
  induction l with
  | nil => simp [alookup_nil]
  | cons e rest ih =>
    simp only [List.map_cons]
    rw [alookup_cons]
    by_cases hek : e = k
    · simp [hek]
    · have : ¬ k = e := fun h => hek h.symm
      simp [hek, this, ih]

theorem alookup_filter {α : Type} (m : List (String × α)) (pred : String × α → Bool)
    (k : String) (hnd : (m.map Prod.fst).Nodup) :
    alookup (m.filter pred) k =
      (alookup m k).bind (fun v => if pred (k, v) then some v else none) := by
  induction m with
  | nil => simp [alookup_nil]
  | cons p rest ih =>
    obtain ⟨a, w⟩ := p
    simp only [List.map_cons, List.nodup_cons] at hnd
    by_cases hp : pred (a, w)
    · rw [List.filter_cons_of_pos hp, alookup_cons, alookup_cons]
      by_cases hak : a = k
      · subst hak; simp [hp]
      · simp [hak, ih hnd.2]
    · rw [List.filter_cons_of_neg (by simpa using hp), alookup_cons]
      by_cases hak : a = k
      · subst hak
        rw [if_pos rfl]
        have : alookup (rest.filter pred) a = none := by
          rw [alookup_eq_none_iff]
          intro hmem
          rcases List.mem_map.mp hmem with ⟨q, hq, hq1⟩
          exact hnd.1 (hq1 ▸ List.mem_map.mpr ⟨q, List.mem_of_mem_filter hq, rfl⟩)
        simp [this, hp]
      · rw [if_neg hak, ih hnd.2]

/-! ### Build coordinator theorems (C5, C6, C7) -/

/-- C5: the success map returned by `run_live_builds` has keys drawn from the
    requested architecture set and is non-empty whenever the call returns
    normally; once dispatch has succeeded, the call raises the
    "no builds succeeded" error exactly when every requested architecture's
    build failed. -/
theorem run_live_builds_success_map (env : LiveEnv) (arches : List String) :
    (∀ m, run_live_builds env arches = .ok m → (∀ a ∈ m, a ∈ arches) ∧ m ≠ []) ∧
    (dispatchAll env arches = .ok () →
      (run_live_builds env arches = .error .noBuildsSucceeded ↔
        ∀ a ∈ arches, buildSucceeds env a = false)) := by
  constructor
  · intro m hm
    unfold run_live_builds at hm
    cases hd : dispatchAll env arches with
    | error e => rw [hd] at hm; cases hm
    | ok u =>
      rw [hd] at hm
      by_cases he : (arches.filter (buildSucceeds env)).isEmpty
      · rw [if_pos he] at hm; cases hm
      · rw [if_neg he] at hm
        have hm' : arches.filter (buildSucceeds env) = m := by
          injection hm
        constructor
        · intro a ha
          exact List.mem_of_mem_filter (hm' ▸ ha)
        · intro hnil
          rw [hm', hnil] at he
          exact he rfl
  · intro hd
    unfold run_live_builds
    rw [hd]
    constructor
    · intro hrun
      by_cases he : (arches.filter (buildSucceeds env)).isEmpty
      · intro a ha
        by_contra hsucc
        have : a ∈ arches.filter (buildSucceeds env) :=
          List.mem_filter.mpr ⟨ha, by simpa using hsucc⟩
        rw [List.isEmpty_iff] at he
        rw [he] at this
        cases this
      · rw [if_neg he] at hrun; cases hrun
    · intro hall
      have he : (arches.filter (buildSucceeds env)).isEmpty = true := by
        rw [List.isEmpty_iff, List.filter_eq_nil_iff]
        intro a ha
        rw [hall a ha]
        simp
      rw [if_pos he]

/-- C5 witness: the theorem instantiated at a concrete environment where the
    single requested build fails. -/
theorem run_live_builds_success_map_witness :
    run_live_builds
        ⟨fun _ => false, fun _ => ⟨"", none⟩, fun _ => 1, fun _ => [], false, id⟩
        ["amd64"] = .error .noBuildsSucceeded := by
  have h := (run_live_builds_success_map
    ⟨fun _ => false, fun _ => ⟨"", none⟩, fun _ => 1, fun _ => [], false, id⟩
    ["amd64"]).2 (by rfl)
  exact h.mpr (by decide)

/-- C6 counterexample: with `CDIMAGE_REUSE_BUILD` set and an empty
    farm-side build history, the dispatcher raises "no build found to reuse"
    instead of requesting a new build, refuting the claim that a new build
    is requested when no reusable build exists. -/
theorem reuse_build_dispatch_cex :
    dispatchArch ⟨fun _ => true, fun _ => ⟨"", none⟩, fun _ => 1, fun _ => [], true, id⟩
        "amd64" = .error (.noReuseBuild "amd64") ∧
    dispatchArch ⟨fun _ => true, fun _ => ⟨"", none⟩, fun _ => 1, fun _ => [], true, id⟩
        "amd64" ≠ .ok .requestedNew := by
  constructor
  · rfl
  · intro h
    cases h

/-- C6 (amended): with the reuse flag set on a farm-dispatched architecture,
    the coordinator searches the build history for the first build whose
    architecture tag and subarch match and whose state is "Successfully
    built", reuses it when found, and *raises* (rather than requesting a new
    build) when none exists; a new build is requested only when the flag is
    unset. -/
theorem reuse_build_dispatch (env : LiveEnv) (arch : String)
    (hlp : env.isLP arch = true) :
    (env.reuse = true → ∀ b,
      findReuse (env.history arch) (splitArchBits (env.livefsArchFor arch)).1
          (splitArchBits (env.livefsArchFor arch)).2 = some b →
      dispatchArch env arch = .ok (.reused b) ∧
      b.architecture_tag = (splitArchBits (env.livefsArchFor arch)).1 ∧
      b.metadata_subarch = (splitArchBits (env.livefsArchFor arch)).2 ∧
      b.buildstate = "Successfully built") ∧
    (env.reuse = true →
      findReuse (env.history arch) (splitArchBits (env.livefsArchFor arch)).1
          (splitArchBits (env.livefsArchFor arch)).2 = none →
      dispatchArch env arch = .error (.noReuseBuild arch)) ∧
    (env.reuse = false → dispatchArch env arch = .ok .requestedNew) := by
  refine ⟨?_, ?_, ?_⟩
  · intro hre b hfind
    have hprop := List.find?_some hfind
    simp only [Bool.and_eq_true, beq_iff_eq] at hprop
    refine ⟨?_, hprop.1.1, hprop.1.2, hprop.2⟩
    unfold dispatchArch
    rw [hlp, hre]
    simp only [if_pos rfl, if_true]
    rw [hfind]
  · intro hre hfind
    unfold dispatchArch
    rw [hlp, hre]
    simp only [if_pos rfl, if_true]
    rw [hfind]
  · intro hre
    unfold dispatchArch
    rw [hlp, hre]
    simp

/-- C6 witness: the amended theorem applied at a one-build history that
    matches, and the reuse succeeds. -/
theorem reuse_build_dispatch_witness :
    dispatchArch
        ⟨fun _ => true, fun _ => ⟨"", none⟩, fun _ => 1,
         fun _ => [⟨"amd64", "", "Successfully built", 7⟩], true, id⟩
        "amd64" = .ok (.reused ⟨"amd64", "", "Successfully built", 7⟩) :=
  ((reuse_build_dispatch
      ⟨fun _ => true, fun _ => ⟨"", none⟩, fun _ => 1,
       fun _ => [⟨"amd64", "", "Successfully built", 7⟩], true, id⟩
      "amd64" rfl).1 rfl ⟨"amd64", "", "Successfully built", 7⟩ (by decide)).1

/-- C7 counterexample: a handle observed in the terminal success state with
    no log URL is classified `finishedSuccess` immediately on first
    observation, not kept pending for the grace window. -/
theorem poll_grace_window_cex :
    pollClassify ⟨"Successfully built", none⟩ none 0 = .finishedSuccess ∧
    pollClassify ⟨"Successfully built", none⟩ none 0 ≠ .pending (some 300) := by
  constructor
  · rfl
  · intro h; cases h

/-- C7 (amended): in the polling loop, non-terminal states stay pending;
    a handle in the terminal success state is finalized immediately,
    regardless of its log URL; the five-minute (300 s) grace window applies
    to handles in a *non-success* terminal state with no log URL yet —
    the deadline is set on first observation, the handle stays pending until
    the deadline passes, then is finalized as a failure; a non-success
    terminal state with a log URL is finalized as a failure at once. -/
theorem poll_grace_window (b : LPBuildSnapshot) (t : Option Nat) (now : Nat) :
    (b.buildstate ∈ lpPendingStates → pollClassify b t now = .pending t) ∧
    (b.buildstate = "Successfully built" → pollClassify b t now = .finishedSuccess) ∧
    (b.buildstate ∉ lpPendingStates → b.buildstate ≠ "Successfully built" →
      b.build_log_url = none →
      (t = none → pollClassify b t now = .pending (some (now + 300))) ∧
      (∀ tt, t = some tt → now < tt → pollClassify b t now = .pending (some tt)) ∧
      (∀ tt, t = some tt → ¬ now < tt → pollClassify b t now = .finishedFailure)) ∧
    (b.buildstate ∉ lpPendingStates → b.buildstate ≠ "Successfully built" →
      b.build_log_url ≠ none → pollClassify b t now = .finishedFailure) := by
  refine ⟨?_, ?_, ?_, ?_⟩
  · intro hmem
    unfold pollClassify
    rw [if_pos hmem]
  · intro hsucc
    have hnotpending : b.buildstate ∉ lpPendingStates := by
      rw [hsucc]; decide
    unfold pollClassify
    rw [if_neg hnotpending, if_pos (by simp [hsucc])]
  · intro hnp hns hlog
    have hbeq : (b.buildstate == "Successfully built") = false := by
      simpa using hns
    refine ⟨?_, ?_, ?_⟩
    · intro ht
      subst ht
      unfold pollClassify
      rw [if_neg hnp, hbeq]
      simp [hlog]
    · intro tt ht hlt
      subst ht
      unfold pollClassify
      rw [if_neg hnp, hbeq]
      simp [hlog, hlt]
    · intro tt ht hge
      subst ht
      unfold pollClassify
      rw [if_neg hnp, hbeq]
      simp [hlog, hge]
  · intro hnp hns hlog
    have hbeq : (b.buildstate == "Successfully built") = false := by
      simpa using hns
    unfold pollClassify
    rw [if_neg hnp, hbeq]
    simp [hlog]

/-- C7 witness: a failed build without a log gets the 300-second deadline on
    first observation. -/
theorem poll_grace_window_witness :
    pollClassify ⟨"Failed to build", none⟩ none 0 = .pending (some 300) :=
  ((poll_grace_window ⟨"Failed to build", none⟩ none 0).2.2.1
    (by decide) (by decide) rfl).1 rfl

/-! ### Driver error-handling theorem (C9) -/

/-- C9: `build_image_set_locked` catches any exception from the
    build-and-publish cycle and returns failure, invoking `notify_failure`
    for every exception except a `LiveBuildsFailed` ("no builds succeeded"),
    which is skipped; a clean run returns success without notification. -/
theorem build_driver_failure_handling (exc : Option BuildExc) :
    (exc = none → build_image_set_locked_outcome exc = (true, false)) ∧
    (∀ e, exc = some e →
      (build_image_set_locked_outcome exc).1 = false ∧
      ((build_image_set_locked_outcome exc).2 = true ↔ e.isLiveBuildsFailed = false)) := by
  cases exc with
  | none =>
    constructor
    · intro _; rfl
    · intro e he; cases he
  | some e =>
    constructor
    · intro h; cases h
    · intro e' he'
      have he2 : e = e' := by injection he'
      subst he2
      refine ⟨rfl, ?_⟩
      cases h : e.isLiveBuildsFailed <;> simp [build_image_set_locked_outcome, h]

/-- C9 witness: a `LiveBuildsFailed` escape returns failure without a
    notification. -/
theorem build_driver_failure_handling_witness :
    (build_image_set_locked_outcome (some ⟨true⟩)).1 = false ∧
    ¬ ((build_image_set_locked_outcome (some ⟨true⟩)).2 = true) := by
  have h := (build_driver_failure_handling (some ⟨true⟩)).2 ⟨true⟩ rfl
  exact ⟨h.1, fun hc => by cases (h.2.mp hc)⟩

/-! ### Malformed mixed-entry assertion (C10) -/

/-- C10: when "current" is a mixed directory, every manifest-eligible entry
    must be a link whose target splits into exactly
    `[os.pardir, <date>, <entry name>]`; an eligible entry violating this
    shape makes `mark_current` fail its assertion before the current map is
    updated or the tree modified. -/
theorem mark_current_malformed_entry_assert (cfg : Config) (s : TreeState)
    (cds : List String) (date : String) (arches : List String)
    (es : List (String × List String)) (n : String) (bits : List String)
    (hdir : s.current = .dir es) (hmem : (n, bits) ∈ es)
    (helig : currentEntryEligible cfg s.dirs n bits = true)
    (hbad : wellShapedBits n bits = false) :
    markCurrent cfg s cds date arches = .error () := by
  have hread : readCurrentMap cfg s.dirs es = .error () := by
    unfold readCurrentMap
    rw [if_neg]
    intro hall
    rw [List.all_eq_true] at hall
    have hw := hall (n, bits) (List.mem_filter.mpr ⟨hmem, helig⟩)
    rw [hbad] at hw
    cases hw
  have hpre : existingPre cfg s = .error () := by
    simp only [existingPre, hdir, hread]
  simp only [markCurrent, hpre]
  rfl

/-- C10 witness: a concrete mixed directory whose single eligible entry
    links to a different file name fails the assertion. -/
theorem mark_current_malformed_entry_assert_witness :
    markCurrent ⟨"warty", "", "ubuntu", "daily-live"⟩
      { dirs := [("20130320", ["warty-live-amd64.iso", "warty-live-i386.iso"]),
                 ("20130321", ["warty-live-amd64.iso"])],
        current := .dir [("warty-live-amd64.iso",
                          ["..", "20130320", "warty-live-i386.iso"])],
        pending := none, manual := none, markedGood := [] }
      [] "20130321" ["amd64"] = .error () :=
  mark_current_malformed_entry_assert _ _ _ _ _
    [("warty-live-amd64.iso", ["..", "20130320", "warty-live-i386.iso"])]
    "warty-live-amd64.iso" ["..", "20130320", "warty-live-i386.iso"]
    rfl (by decide) (by decide) (by decide)

/-! ### Retention theorems (C3, C4, C8) -/

theorem referenced_isReferencedEntry (s : TreeState) (g : String)
    (h : ReferencedGen s g) : isReferencedEntry s g = true := by
  rcases h with h | h | ⟨es, n, hd, hm⟩ | ⟨t, hm, hn⟩
  · simp [isReferencedEntry, h]
  · simp [isReferencedEntry, h]
  · simp only [isReferencedEntry, hd]
    have hany : es.any (fun p => p.2 == [pardir, g, p.1]) = true :=
      List.any_eq_true.mpr ⟨(n, [pardir, g, n]), hm, by simp⟩
    rw [hany]
    simp
  · simp [isReferencedEntry, hm, hn]

theorem purgeGo_not_mem_of_referenced (s : TreeState) (days count : Option Int)
    (oldest : Int) (g : String) (href : isReferencedEntry s g = true) :
    ∀ (lst : List String) (ic : Int) (acc : List String), g ∉ acc →
    ∀ res, purgeGo s days count oldest lst ic acc = .ok res → g ∉ res := by
  intro lst
  induction lst with
  | nil =>
    intro ic acc hacc res h
    unfold purgeGo at h
    injection h with h
    exact h ▸ hacc
  | cons e rest ih =>
    intro ic acc hacc res h
    unfold purgeGo at h
    split at h
    · cases h
    · split at h
      · exact ih _ _ hacc res h
      · split at h
        · exact ih _ _ hacc res h
        · rename_i hnotref
          refine ih _ _ ?_ res h
          intro hmem
          rcases List.mem_append.mp hmem with hmem | hmem
          · exact hacc hmem
          · have hge : g = e := by simpa using hmem
            exact hnotref (hge ▸ href)

/-- C3: for every tree state and retention configuration under which `purge`
    does not raise, no generation referenced by the "pending" pointer, a pure
    "current" symlink, a per-file link of a mixed "current" directory, or the
    normalized "manual" target is selected for deletion, and such a
    generation survives in the resulting tree. -/
theorem purge_preserves_referenced (s : TreeState)
    (daysFile countFile : Option (List (String × Int)))
    (project image_type : String) (oldest : Int) (nopurge : Bool)
    (l : List String) (sf : TreeState) (g : String)
    (hrun : purgeRun s daysFile countFile project image_type oldest nopurge =
      .ok (l, sf))
    (href : ReferencedGen s g) :
    g ∉ l ∧ (g ∈ s.dirs.map Prod.fst → g ∈ sf.dirs.map Prod.fst) := by
  have hb := referenced_isReferencedEntry s g href
  unfold purgeRun at hrun
  split at hrun
  · -- neither policy truthy: no-op
    injection hrun with hrun
    have hl : l = [] := by
      have := congrArg Prod.fst hrun
      simpa using this.symm
    have hs : sf = s := by
      have := congrArg Prod.snd hrun
      simpa using this.symm
    subst hl; subst hs
    exact ⟨by simp, fun h => h⟩
  · split at hrun
    · cases hrun
    · split at hrun
      · cases hrun
      · rename_i l0 hscan
        injection hrun with hrun
        have hl : l = l0 := by
          have := congrArg Prod.fst hrun
          simpa using this.symm
        have hs : sf = (if nopurge then s
            else { s with dirs := s.dirs.filter (fun p => !(l0.contains p.1)) }) := by
          have := congrArg Prod.snd hrun
          simpa using this.symm
        subst hl
        have hnot : g ∉ l :=
          purgeGo_not_mem_of_referenced s _ _ oldest g hb _ 0 [] (by simp) l hscan
        refine ⟨hnot, ?_⟩
        intro hmem
        subst hs
        by_cases hnp : nopurge
        · rw [if_pos hnp]; exact hmem
        · rw [if_neg hnp]
          rcases List.mem_map.mp hmem with ⟨p, hp, hp1⟩
          refine List.mem_map.mpr ⟨p, List.mem_filter.mpr ⟨hp, ?_⟩, hp1⟩
          have hc : ¬ (l.contains p.1 = true) := by
            rw [List.elem_iff, hp1]
            exact hnot
          simp [hc]
          rw [hp1]
          exact hnot

/-- C3 witness: the theorem applied at a state whose sole old generation is
    the "pending" target, which indeed survives an age purge that would
    otherwise delete it. -/
theorem purge_preserves_referenced_witness :
    "20130318" ∉ (["20130319"] : List String) ∧
    ("20130318" ∈ (([("20130318", []), ("20130319", []), ("20130320", []),
        ("20130321", [])] : List (String × List String)).map Prod.fst) →
      "20130318" ∈ (([("20130318", []), ("20130320", []), ("20130321", [])] :
        List (String × List String)).map Prod.fst)) :=
  purge_preserves_referenced
    ⟨[("20130318", []), ("20130319", []), ("20130320", []), ("20130321", [])],
     .absent, some "20130318", none, []⟩
    (some [("ubuntu", 1)]) none "ubuntu" "daily-live" 20130320 false
    ["20130319"]
    ⟨[("20130318", []), ("20130320", []), ("20130321", [])],
     .absent, some "20130318", none, []⟩
    "20130318" rfl (Or.inl rfl)

/-- C4 counterexample: a zero-valued age policy and a nonzero count policy
    both *resolve* for the same project, yet `purge` does not raise the
    ambiguity error (it runs the count policy), refuting the claimed
    if-and-only-if. -/
theorem purge_policy_ambiguity_cex :
    (get_purge_data (some [("p", (0 : Int))]) "p").isSome = true ∧
    (get_purge_data (some [("p", (7 : Int))]) "p").isSome = true ∧
    purgeRun ⟨[], .absent, none, none, []⟩ (some [("p", 0)]) (some [("p", 7)])
        "p" "t" 0 false ≠ .error .ambiguous := by
  refine ⟨rfl, rfl, ?_⟩
  intro h
  cases h

/-- C4 (amended): `purge` resolves the age and count policies each by the
    fallback order project, project/image-type, image-type; it raises the
    ambiguity error if and only if both resolve to *nonzero* (Python-truthy)
    values, and in that case deletes nothing (no `.ok` state is produced);
    when neither resolves truthy it is a no-op returning the tree unchanged. -/
theorem purge_policy_ambiguity (s : TreeState)
    (df cf : Option (List (String × Int))) (project image_type : String)
    (oldest : Int) (np : Bool) :
    (purgeRun s df cf project image_type oldest np = .error .ambiguous ↔
      (pyTruthy (resolvePolicy df project image_type) = true ∧
       pyTruthy (resolvePolicy cf project image_type) = true)) ∧
    (pyTruthy (resolvePolicy df project image_type) = false →
     pyTruthy (resolvePolicy cf project image_type) = false →
      purgeRun s df cf project image_type oldest np = .ok ([], s)) ∧
    (∀ f : Option (List (String × Int)),
      (get_purge_data f project).isSome = true →
      resolvePolicy f project image_type = get_purge_data f project) ∧
    (∀ f : Option (List (String × Int)),
      get_purge_data f project = none →
      (get_purge_data f (project ++ "/" ++ image_type)).isSome = true →
      resolvePolicy f project image_type =
        get_purge_data f (project ++ "/" ++ image_type)) ∧
    (∀ f : Option (List (String × Int)),
      get_purge_data f project = none →
      get_purge_data f (project ++ "/" ++ image_type) = none →
      resolvePolicy f project image_type = get_purge_data f image_type) := by
  refine ⟨?_, ?_, ?_, ?_, ?_⟩
  · constructor
    · intro h
      unfold purgeRun at h
      split at h
      · cases h
      · split at h
        · rename_i hcond
          simpa using hcond
        · split at h <;> cases h
    · rintro ⟨h1, h2⟩
      unfold purgeRun
      rw [h1, h2]
      simp
  · intro h1 h2
    unfold purgeRun
    rw [h1, h2]
    simp
  · intro f hsm
    unfold resolvePolicy
    cases h : get_purge_data f project with
    | none => rw [h] at hsm; cases hsm
    | some v => rfl
  · intro f hnone hsm
    unfold resolvePolicy
    rw [hnone]
    cases h : get_purge_data f (project ++ "/" ++ image_type) with
    | none => rw [h] at hsm; cases hsm
    | some v => rfl
  · intro f hnone1 hnone2
    unfold resolvePolicy
    rw [hnone1, hnone2]

/-- C4 witness: the amended characterization applied where both policies
    resolve truthy, so `purge` raises. -/
theorem purge_policy_ambiguity_witness :
    purgeRun ⟨[], .absent, none, none, []⟩ (some [("p", (1 : Int))])
        (some [("p", (7 : Int))]) "p" "t" 0 false = .error .ambiguous :=
  (purge_policy_ambiguity ⟨[], .absent, none, none, []⟩
    (some [("p", 1)]) (some [("p", 7)]) "p" "t" 0 false).1.mpr
    (by constructor <;> rfl)

theorem purgeGo_age_exempt (s : TreeState) (days count : Option Int)
    (oldest : Int) (g : String) (k : Int)
    (hdays : pyTruthy days = true) (hcount : pyTruthy count = false)
    (hparse : pyIntOfName g = some k) (hold : oldest ≤ k) :
    ∀ (lst : List String) (ic : Int) (acc : List String), g ∉ acc →
    ∀ res, purgeGo s days count oldest lst ic acc = .ok res → g ∉ res := by
  intro lst
  induction lst with
  | nil =>
    intro ic acc hacc res h
    unfold purgeGo at h
    injection h with h
    exact h ▸ hacc
  | cons e rest ih =>
    intro ic acc hacc res h
    unfold purgeGo at h
    split at h
    · cases h
    · split at h
      · exact ih _ _ hacc res h
      · split at h
        · exact ih _ _ hacc res h
        · rename_i hguard hnotref
          refine ih _ _ ?_ res h
          intro hmem
          rcases List.mem_append.mp hmem with hmem | hmem
          · exact hacc hmem
          · have hge : g = e := by simpa using hmem
            subst hge
            -- under the age policy with no count policy, the guard holds
            apply hguard
            have ha : ageOkAt days oldest g = true := by
              unfold ageOkAt
              rw [if_pos hdays, hparse]
              simpa using hold
            have hc : countOkAt count (ic + 1) = true := by
              unfold countOkAt
              rw [hcount]
              simp
            rw [ha, hc]
            rfl

/-- C8: with an age policy of one day and "now" on 20130321 (so the cutoff
    computed by `purge` is 20130320), generations 20130318–20130321, none
    referenced by any pointer, purge deletes exactly 20130318 and 20130319
    and retains the rest; and in general, under an age policy (no count
    policy), any candidate whose leading numeric value is at least the
    cutoff is exempt from deletion. -/
theorem purge_age_policy_scenario :
    (purgeRun
        ⟨[("20130318", []), ("20130319", []), ("20130320", []), ("20130321", [])],
         .absent, none, none, []⟩
        (some [("ubuntu", 1)]) none "ubuntu" "daily-live" 20130320 false =
      .ok (["20130319", "20130318"],
        ⟨[("20130320", []), ("20130321", [])], .absent, none, none, []⟩)) ∧
    (∀ (s : TreeState) (days count : Option Int) (oldest : Int) (g : String)
        (k : Int) (l : List String),
      pyTruthy days = true → pyTruthy count = false →
      pyIntOfName g = some k → oldest ≤ k →
      purgeScan s days count oldest = .ok l → g ∉ l) := by
  constructor
  · rfl
  · intro s days count oldest g k l hdays hcount hparse hold hscan
    exact purgeGo_age_exempt s days count oldest g k hdays hcount hparse hold
      _ 0 [] (by simp) l hscan

/-- C8 witness: the general exemption applied to generation 20130321 under
    the scenario's age policy. -/
theorem purge_age_policy_scenario_witness :
    "20130321" ∉ (["20130319", "20130318"] : List String) :=
  purge_age_policy_scenario.2
    ⟨[("20130318", []), ("20130319", []), ("20130320", []), ("20130321", [])],
     .absent, none, none, []⟩
    (some 1) none 20130320 "20130321" 20130321 ["20130319", "20130318"]
    rfl rfl rfl (by decide) rfl

/-! ### The update loop and the link loop -/

theorem alookup_applyUpdate (cfg : Config) (arches : List String) (date : String)
    (avail : List String) (pre : List (String × String)) (n : String) :
    alookup (applyUpdate cfg arches date avail pre) n =
      if imageMatches cfg arches n = true ∧ n ∈ avail then some date
      else alookup pre n := by
  unfold applyUpdate
  induction avail generalizing pre with
  | nil => simp
  | cons a rest ih =>
    rw [List.foldl_cons, ih]
    by_cases hr : imageMatches cfg arches n = true ∧ n ∈ rest
    · rw [if_pos hr, if_pos ⟨hr.1, List.mem_cons_of_mem _ hr.2⟩]
    · rw [if_neg hr]
      by_cases hna : n = a
      · subst hna
        by_cases hm : imageMatches cfg arches n = true
        · rw [if_pos hm, alookup_insertAssoc, if_pos rfl,
            if_pos ⟨hm, List.mem_cons_self _ _⟩]
        · rw [if_neg (by simpa using hm)]
          rw [if_neg]
          rintro ⟨h1, -⟩
          exact hm h1
      · have hstep : ∀ m : List (String × String),
            alookup (if imageMatches cfg arches a = true
              then insertAssoc m a date else m) n = alookup m n := by
          intro m
          by_cases hm : imageMatches cfg arches a = true
          · rw [if_pos hm, alookup_insertAssoc, if_neg hna]
          · rw [if_neg hm]
        rw [hstep]
        rw [if_neg]
        rintro ⟨h1, h2⟩
        rcases List.mem_cons.mp h2 with h2 | h2
        · exact hna h2
        · exact hr ⟨h1, h2⟩

theorem nodup_keys_applyUpdate (cfg : Config) (arches : List String) (date : String)
    (avail : List String) (pre : List (String × String))
    (h : (pre.map Prod.fst).Nodup) :
    ((applyUpdate cfg arches date avail pre).map Prod.fst).Nodup := by
  unfold applyUpdate
  induction avail generalizing pre with
  | nil => exact h
  | cons a rest ih =>
    rw [List.foldl_cons]
    apply ih
    by_cases hm : imageMatches cfg arches a = true
    · rw [if_pos hm]; exact nodup_keys_insertAssoc a date h
    · rw [if_neg hm]; exact h

theorem mem_changedOf (cfg : Config) (arches : List String) (avail : List String)
    (n : String) :
    n ∈ changedOf cfg arches avail ↔ n ∈ avail ∧ imageMatches cfg arches n = true := by
  unfold changedOf
  exact List.mem_filter

theorem alookup_applyUpdate_of_changed (cfg : Config) (arches : List String)
    (date : String) (avail : List String) (pre : List (String × String)) (n : String)
    (h : n ∈ changedOf cfg arches avail) :
    alookup (applyUpdate cfg arches date avail pre) n = some date := by
  rw [alookup_applyUpdate]
  rcases (mem_changedOf cfg arches avail n).mp h with ⟨h1, h2⟩
  rw [if_pos ⟨h2, h1⟩]

theorem alookup_linkImage (dirs : List (String × List String))
    (cur : List (String × List String)) (d image : String) (n : String) :
    alookup (linkImage dirs cur d image) n =
      if baseOf n = baseOf image ∧ n ∈ listingOf dirs d then some [pardir, d, n]
      else alookup cur n := by
  unfold linkImage
  have aux : ∀ (l : List String) (cur : List (String × List String)),
      alookup (l.foldl (fun acc e => if baseOf e == baseOf image
          then insertAssoc acc e [pardir, d, e] else acc) cur) n =
        if baseOf n = baseOf image ∧ n ∈ l then some [pardir, d, n]
        else alookup cur n := by
    intro l
    induction l with
    | nil => intro cur; simp
    | cons e rest ih =>
      intro cur
      rw [List.foldl_cons, ih]
      by_cases hr : baseOf n = baseOf image ∧ n ∈ rest
      · rw [if_pos hr, if_pos ⟨hr.1, List.mem_cons_of_mem _ hr.2⟩]
      · rw [if_neg hr]
        by_cases hne : n = e
        · subst hne
          by_cases hb : baseOf n = baseOf image
          · rw [if_pos (by simpa using hb), alookup_insertAssoc, if_pos rfl,
              if_pos ⟨hb, List.mem_cons_self _ _⟩]
          · rw [if_neg (by simpa using hb), if_neg]
            rintro ⟨h1, -⟩
            exact hb h1
        · have hstep : alookup (if baseOf e == baseOf image
              then insertAssoc cur e [pardir, d, e] else cur) n = alookup cur n := by
            by_cases hb : (baseOf e == baseOf image) = true
            · rw [if_pos hb, alookup_insertAssoc, if_neg hne]
            · rw [if_neg hb]
          rw [hstep, if_neg]
          rintro ⟨h1, h2⟩
          rcases List.mem_cons.mp h2 with h2 | h2
          · exact hne h2
          · exact hr ⟨h1, h2⟩
  exact aux (listingOf dirs d) cur

theorem nodup_keys_linkImage (dirs : List (String × List String))
    (cur : List (String × List String)) (d image : String)
    (h : (cur.map Prod.fst).Nodup) :
    ((linkImage dirs cur d image).map Prod.fst).Nodup := by
  unfold linkImage
  have aux : ∀ (l : List String) (cur : List (String × List String)),
      (cur.map Prod.fst).Nodup →
      ((l.foldl (fun acc e => if baseOf e == baseOf image
          then insertAssoc acc e [pardir, d, e] else acc) cur).map Prod.fst).Nodup := by
    intro l
    induction l with
    | nil => intro cur h; exact h
    | cons e rest ih =>
      intro cur h
      rw [List.foldl_cons]
      apply ih
      by_cases hb : (baseOf e == baseOf image) = true
      · rw [if_pos hb]; exact nodup_keys_insertAssoc e _ h
      · rw [if_neg hb]; exact h
  exact aux (listingOf dirs d) cur h

theorem mem_linkImage (dirs : List (String × List String))
    (cur : List (String × List String)) (d image : String) (p : String × List String)
    (h : p ∈ linkImage dirs cur d image) :
    p ∈ cur ∨ (p.2 = [pardir, d, p.1] ∧ p.1 ∈ listingOf dirs d) := by
  unfold linkImage at h
  have aux : ∀ (l : List String) (cur : List (String × List String)),
      p ∈ l.foldl (fun acc e => if baseOf e == baseOf image
          then insertAssoc acc e [pardir, d, e] else acc) cur →
      (∀ e ∈ l, e ∈ listingOf dirs d) →
      p ∈ cur ∨ (p.2 = [pardir, d, p.1] ∧ p.1 ∈ listingOf dirs d) := by
    intro l
    induction l with
    | nil => intro cur h _; exact Or.inl h
    | cons e rest ih =>
      intro cur h hsub
      rw [List.foldl_cons] at h
      rcases ih _ h (fun x hx => hsub x (List.mem_cons_of_mem _ hx)) with h1 | h1
      · by_cases hb : (baseOf e == baseOf image) = true
        · rw [if_pos hb] at h1
          rcases mem_insertAssoc h1 with h2 | h2
          · exact Or.inl h2
          · subst h2
            exact Or.inr ⟨rfl, hsub e (List.mem_cons_self _ _)⟩
        · rw [if_neg hb] at h1
          exact Or.inl h1
      · exact Or.inr h1
  exact aux (listingOf dirs d) cur h (fun e he => he)

theorem nodup_keys_linkAll (dirs : List (String × List String))
    (post : List (String × String)) (used : List String)
    (cur : List (String × List String)) (h : (cur.map Prod.fst).Nodup) :
    ((linkAll dirs post used cur).map Prod.fst).Nodup := by
  unfold linkAll
  induction used generalizing cur with
  | nil => exact h
  | cons i rest ih =>
    rw [List.foldl_cons]
    exact ih _ (nodup_keys_linkImage _ _ _ _ h)

theorem mem_linkAll (dirs : List (String × List String))
    (post : List (String × String)) (used : List String)
    (cur : List (String × List String)) (p : String × List String)
    (h : p ∈ linkAll dirs post used cur) :
    p ∈ cur ∨ (∃ d, p.2 = [pardir, d, p.1] ∧ p.1 ∈ listingOf dirs d) := by
  unfold linkAll at h
  induction used generalizing cur with
  | nil => exact Or.inl h
  | cons i rest ih =>
    rw [List.foldl_cons] at h
    rcases ih _ h with h1 | h1
    · rcases mem_linkImage _ _ _ _ _ h1 with h2 | h2
      · exact Or.inl h2
      · exact Or.inr ⟨_, h2⟩
    · exact Or.inr h1

theorem writeTarget_eq_some (dirs : List (String × List String))
    (post : List (String × String)) (used : List String) (n : String)
    (b : List String) (h : writeTarget dirs post used n = some b) :
    ∃ img ∈ used, baseOf n = baseOf img ∧
      n ∈ listingOf dirs ((alookup post img).getD "") ∧
      b = [pardir, (alookup post img).getD "", n] := by
  unfold writeTarget at h
  cases hf : used.find? (fun image => baseOf n == baseOf image &&
      decide (n ∈ listingOf dirs ((alookup post image).getD ""))) with
  | none => rw [hf] at h; cases h
  | some img =>
    rw [hf] at h
    injection h with h
    have hmem := List.mem_of_find?_eq_some hf
    have hprop := List.find?_some hf
    simp only [Bool.and_eq_true, beq_iff_eq, decide_eq_true_eq] at hprop
    exact ⟨img, hmem, hprop.1, hprop.2, h.symm⟩

theorem writeTarget_eq_none (dirs : List (String × List String))
    (post : List (String × String)) (used : List String) (n : String)
    (h : writeTarget dirs post used n = none) :
    ∀ img ∈ used, ¬(baseOf n = baseOf img ∧
      n ∈ listingOf dirs ((alookup post img).getD "")) := by
  unfold writeTarget at h
  rw [Option.map_eq_none'] at h
  intro img hmem hcond
  have := List.find?_eq_none.mp h img hmem
  simp only [Bool.and_eq_true, beq_iff_eq, decide_eq_true_eq] at this
  exact this ⟨hcond.1, hcond.2⟩

theorem alookup_linkAll (dirs : List (String × List String))
    (post : List (String × String)) (used : List String)
    (cur : List (String × List String)) (n : String)
    (hcw : ConsistentWrites dirs post used) :
    alookup (linkAll dirs post used cur) n =
      match writeTarget dirs post used n with
      | some bits => some bits
      | none => alookup cur n := by
  unfold linkAll
  induction used generalizing cur with
  | nil => simp [writeTarget]
  | cons i rest ih =>
    rw [List.foldl_cons]
    have hcwrest : ConsistentWrites dirs post rest := by
      intro a ha b hb m h1 h2 h3 h4
      exact hcw a (List.mem_cons_of_mem _ ha) b (List.mem_cons_of_mem _ hb) m h1 h2 h3 h4
    rw [ih _ hcwrest]
    by_cases hpred : (baseOf n == baseOf i &&
        decide (n ∈ listingOf dirs ((alookup post i).getD ""))) = true
    · have hw : writeTarget dirs post (i :: rest) n =
          some [pardir, (alookup post i).getD "", n] := by
        simp only [writeTarget, List.find?_cons, hpred]
        rfl
      rw [hw]
      simp only [Bool.and_eq_true, beq_iff_eq, decide_eq_true_eq] at hpred
      cases hrest : writeTarget dirs post rest n with
      | some b =>
        rcases writeTarget_eq_some _ _ _ _ _ hrest with ⟨j, hj, hbase, hmem, hb⟩
        have hd := hcw j (List.mem_cons_of_mem _ hj) i (List.mem_cons_self _ _) n
          hbase hpred.1 hmem hpred.2
        rw [hb, hd]
      | none =>
        rw [alookup_linkImage, if_pos ⟨hpred.1, hpred.2⟩]
    · have hf : (baseOf n == baseOf i &&
          decide (n ∈ listingOf dirs ((alookup post i).getD ""))) = false := by
        simpa using hpred
      have hw : writeTarget dirs post (i :: rest) n = writeTarget dirs post rest n := by
        simp only [writeTarget, List.find?_cons, hf]
      rw [hw]
      cases hrest : writeTarget dirs post rest n with
      | some b => rfl
      | none =>
        rw [alookup_linkImage, if_neg]
        intro hcond
        apply hpred
        simp only [Bool.and_eq_true, beq_iff_eq, decide_eq_true_eq]
        exact ⟨hcond.1, hcond.2⟩

/-! ### Set-style comparisons, bookkeeping no-ops -/

theorem eqAsSets_true_iff (a b : List String) :
    eqAsSets a b = true ↔ (∀ x ∈ a, x ∈ b) ∧ (∀ x ∈ b, x ∈ a) := by
  unfold eqAsSets
  rw [Bool.and_eq_true, List.all_eq_true, List.all_eq_true]
  constructor
  · rintro ⟨h1, h2⟩
    exact ⟨fun x hx => by simpa using h1 x hx, fun x hx => by simpa using h2 x hx⟩
  · rintro ⟨h1, h2⟩
    exact ⟨fun x hx => by simpa using h1 x hx, fun x hx => by simpa using h2 x hx⟩

theorem mem_vals_iff {m : List (String × String)}
    (hnd : (m.map Prod.fst).Nodup) (v : String) :
    v ∈ m.map Prod.snd ↔ ∃ k, alookup m k = some v := by
  constructor
  · intro h
    rcases List.mem_map.mp h with ⟨p, hp, hv⟩
    refine ⟨p.1, ?_⟩
    rw [← hv]
    exact alookup_eq_some_of_mem hnd hp
  · rintro ⟨k, hk⟩
    exact List.mem_map.mpr ⟨(k, v), mem_of_alookup_eq_some hk, rfl⟩

theorem pureCond_congr (avail : List String) (date : String)
    (m1 m2 : List (String × String))
    (h : ∀ n, alookup m1 n = alookup m2 n)
    (h1 : (m1.map Prod.fst).Nodup) (h2 : (m2.map Prod.fst).Nodup) :
    pureCond avail date m1 = pureCond avail date m2 := by
  have hkeys : ∀ n, n ∈ m1.map Prod.fst ↔ n ∈ m2.map Prod.fst := by
    intro n
    rw [← alookup_isSome_iff, ← alookup_isSome_iff, h]
  have hvals : ∀ v, v ∈ m1.map Prod.snd ↔ v ∈ m2.map Prod.snd := by
    intro v
    rw [mem_vals_iff h1, mem_vals_iff h2]
    constructor
    · rintro ⟨k, hk⟩; exact ⟨k, (h k) ▸ hk⟩
    · rintro ⟨k, hk⟩; exact ⟨k, (h k).symm ▸ hk⟩
  have hsides : pureCond avail date m1 = true ↔ pureCond avail date m2 = true := by
    unfold pureCond
    rw [Bool.and_eq_true, Bool.and_eq_true, eqAsSets_true_iff, eqAsSets_true_iff,
      eqAsSets_true_iff, eqAsSets_true_iff]
    constructor
    · rintro ⟨⟨a1, a2⟩, ⟨b1, b2⟩⟩
      refine ⟨⟨fun x hx => a1 x ((hkeys x).mpr hx), fun x hx => (hkeys x).mp (a2 x hx)⟩,
        ⟨fun x hx => b1 x ((hvals x).mpr hx), fun x hx => (hvals x).mp (b2 x hx)⟩⟩
    · rintro ⟨⟨a1, a2⟩, ⟨b1, b2⟩⟩
      refine ⟨⟨fun x hx => a1 x ((hkeys x).mp hx), fun x hx => (hkeys x).mpr (a2 x hx)⟩,
        ⟨fun x hx => b1 x ((hvals x).mp hx), fun x hx => (hvals x).mpr (b2 x hx)⟩⟩
  cases hc1 : pureCond avail date m1 with
  | true => exact (hsides.mp hc1).symm
  | false =>
    cases hc2 : pureCond avail date m2 with
    | true => exact absurd (hsides.mpr hc2) (by rw [hc1]; simp)
    | false => rfl

theorem NTLines_appendLine (L : List String) (e : String) :
    NTLines (appendLine L e) := by
  right
  unfold appendLine
  rw [show L.dropLast ++ [((L.getLast?).getD "") ++ e, ""] =
    (L.dropLast ++ [((L.getLast?).getD "") ++ e]) ++ [""] by simp]
  rw [List.getLast?_concat]

theorem mem_appendLine_of_mem (L : List String) (e x : String) (h : NTLines L)
    (hx : x ∈ L) : x ∈ appendLine L e := by
  rcases h with h | h
  · subst h; cases hx
  · have hne : L ≠ [] := by
      intro hh; rw [hh] at h; cases h
    have hlast : L.getLast hne = "" := by
      have hq := List.getLast?_eq_getLast L hne
      rw [h] at hq
      injection hq with hq
      exact hq.symm
    have hdecomp : L.dropLast ++ [L.getLast hne] = L := List.dropLast_concat_getLast hne
    unfold appendLine
    rw [← hdecomp] at hx
    rcases List.mem_append.mp hx with h1 | h1
    · exact List.mem_append.mpr (Or.inl h1)
    · have hx0 : x = "" := by
        rw [hlast] at h1; simpa using h1
      subst hx0
      refine List.mem_append.mpr (Or.inr ?_)
      simp

theorem mem_appendLine_self (L : List String) (e : String) (h : NTLines L) :
    e ∈ appendLine L e := by
  unfold appendLine
  refine List.mem_append.mpr (Or.inr ?_)
  rcases h with h | h
  · subst h; simp
  · rw [h]; simp

theorem NTLines_appendMarkedLines (L : List String) (good : List String)
    (h : NTLines L) : NTLines (appendMarkedLines L good) := by
  unfold appendMarkedLines
  have aux : ∀ (g : List String) (acc : List String), NTLines acc →
      NTLines (g.foldl (fun acc e => if e ∈ L then acc else appendLine acc e) acc) := by
    intro g
    induction g with
    | nil => intro acc hacc; exact hacc
    | cons a g ih =>
      intro acc hacc
      rw [List.foldl_cons]
      by_cases hm : a ∈ L
      · rw [if_pos hm]; exact ih _ hacc
      · rw [if_neg hm]; exact ih _ (NTLines_appendLine acc a)
  exact aux good L h

theorem mem_foldl_appendMarked (L : List String) (x : String) :
    ∀ (g : List String) (acc : List String), NTLines acc → x ∈ acc →
    x ∈ g.foldl (fun acc e => if e ∈ L then acc else appendLine acc e) acc := by
  intro g
  induction g with
  | nil => intro acc _ hx; exact hx
  | cons a g ih =>
    intro acc hacc hx
    rw [List.foldl_cons]
    by_cases hm : a ∈ L
    · rw [if_pos hm]; exact ih _ hacc hx
    · rw [if_neg hm]
      exact ih _ (NTLines_appendLine acc a) (mem_appendLine_of_mem acc a x hacc hx)

theorem mem_appendMarkedLines (L : List String) (good : List String)
    (h : NTLines L) : ∀ e ∈ good, e ∈ appendMarkedLines L good := by
  unfold appendMarkedLines
  have aux : ∀ (g : List String) (acc : List String), NTLines acc →
      (∀ x ∈ L, x ∈ acc) → ∀ e ∈ g,
      e ∈ g.foldl (fun acc e => if e ∈ L then acc else appendLine acc e) acc := by
    intro g
    induction g with
    | nil => intro acc _ _ e he; cases he
    | cons a g ih =>
      intro acc hacc hsub e he
      rw [List.foldl_cons]
      rcases List.mem_cons.mp he with he | he
      · subst he
        by_cases hm : e ∈ L
        · rw [if_pos hm]
          exact mem_foldl_appendMarked L e g acc hacc (hsub e hm)
        · rw [if_neg hm]
          exact mem_foldl_appendMarked L e g _ (NTLines_appendLine acc e)
            (mem_appendLine_self acc e hacc)
      · by_cases hm : a ∈ L
        · rw [if_pos hm]; exact ih acc hacc hsub e he
        · rw [if_neg hm]
          refine ih _ (NTLines_appendLine acc a) ?_ e he
          intro x hx
          exact mem_appendLine_of_mem acc a x hacc (hsub x hx)
  exact aux good L h (fun x hx => hx)

theorem appendMarkedLines_id (L : List String) (good : List String)
    (h : ∀ e ∈ good, e ∈ L) : appendMarkedLines L good = L := by
  unfold appendMarkedLines
  induction good with
  | nil => rfl
  | cons a g ih =>
    rw [List.foldl_cons, if_pos (h a (List.mem_cons_self _ _))]
    exact ih (fun e he => h e (List.mem_cons_of_mem _ he))

theorem mem_addCds_left (cds : List String) (post : List (String × String)) :
    ∀ x ∈ cds, x ∈ addCds cds post := by
  unfold addCds
  induction post generalizing cds with
  | nil => intro x hx; exact hx
  | cons q rest ih =>
    intro x hx
    rw [List.foldl_cons]
    by_cases hm : q.2 ∈ cds
    · rw [if_pos hm]; exact ih cds x hx
    · rw [if_neg hm]
      exact ih _ x (List.mem_append.mpr (Or.inl hx))

theorem mem_addCds {cds : List String} {post : List (String × String)}
    {p : String × String} (hp : p ∈ post) : p.2 ∈ addCds cds post := by
  unfold addCds
  induction post generalizing cds with
  | nil => cases hp
  | cons q rest ih =>
    rw [List.foldl_cons]
    rcases List.mem_cons.mp hp with hp | hp
    · subst hp
      by_cases hm : p.2 ∈ cds
      · rw [if_pos hm]
        exact mem_addCds_left cds rest p.2 hm
      · rw [if_neg hm]
        exact mem_addCds_left _ rest p.2 (List.mem_append.mpr (Or.inr (by simp)))
    · by_cases hm : q.2 ∈ cds
      · rw [if_pos hm]; exact ih hp
      · rw [if_neg hm]; exact ih hp

theorem addCds_id (cds : List String) (post : List (String × String))
    (h : ∀ p ∈ post, p.2 ∈ cds) : addCds cds post = cds := by
  unfold addCds
  induction post with
  | nil => rfl
  | cons q rest ih =>
    rw [List.foldl_cons, if_pos (h q (List.mem_cons_self _ _))]
    exact ih (fun p hp => h p (List.mem_cons_of_mem _ hp))

theorem linkImage_id (dirs : List (String × List String))
    (E : List (String × List String)) (d image : String)
    (hnd : (E.map Prod.fst).Nodup)
    (h : ∀ e ∈ listingOf dirs d, baseOf e = baseOf image → (e, [pardir, d, e]) ∈ E) :
    linkImage dirs E d image = E := by
  unfold linkImage
  have aux : ∀ (l : List String), (∀ e ∈ l, baseOf e = baseOf image →
      (e, [pardir, d, e]) ∈ E) →
      l.foldl (fun acc e => if baseOf e == baseOf image
        then insertAssoc acc e [pardir, d, e] else acc) E = E := by
    intro l
    induction l with
    | nil => intro _; rfl
    | cons e rest ih =>
      intro hl
      rw [List.foldl_cons]
      have hstep : (if baseOf e == baseOf image
          then insertAssoc E e [pardir, d, e] else E) = E := by
        by_cases hb : (baseOf e == baseOf image) = true
        · rw [if_pos hb]
          exact insertAssoc_self hnd (hl e (List.mem_cons_self _ _) (by simpa using hb))
        · rw [if_neg hb]
      rw [hstep]
      exact ih (fun x hx hbx => hl x (List.mem_cons_of_mem _ hx) hbx)
  exact aux (listingOf dirs d) h

theorem linkAll_id (dirs : List (String × List String))
    (post : List (String × String)) (used : List String)
    (E : List (String × List String)) (hnd : (E.map Prod.fst).Nodup)
    (h : ∀ img ∈ used, ∀ e ∈ listingOf dirs ((alookup post img).getD ""),
      baseOf e = baseOf img → (e, [pardir, (alookup post img).getD "", e]) ∈ E) :
    linkAll dirs post used E = E := by
  unfold linkAll
  induction used with
  | nil => rfl
  | cons i rest ih =>
    rw [List.foldl_cons]
    have hstep : linkImage dirs E ((alookup post i).getD "") i = E :=
      linkImage_id dirs E _ i hnd (h i (List.mem_cons_self _ _))
    rw [hstep]
    exact ih (fun img hmem => h img (List.mem_cons_of_mem _ hmem))

theorem listingOf_nodup (s : TreeState) (hwf : WellFormedTree s) (d : String) :
    (listingOf s.dirs d).Nodup := by
  unfold listingOf
  cases h : alookup s.dirs d with
  | none => simp
  | some l =>
    have hm := mem_of_alookup_eq_some h
    exact hwf.2.1 (d, l) hm

/-! ### Reading a mixed directory back -/

theorem readCurrentMap_ok_elim {cfg : Config} {dirs : List (String × List String)}
    {es : List (String × List String)} {pre : List (String × String)}
    (h : readCurrentMap cfg dirs es = .ok pre) :
    pre = (es.filter (fun p => currentEntryEligible cfg dirs p.1 p.2)).map
        (fun p => (p.1, bitsDate p.2)) ∧
    (∀ p ∈ es, currentEntryEligible cfg dirs p.1 p.2 = true →
      wellShapedBits p.1 p.2 = true) := by
  unfold readCurrentMap at h
  split at h
  · rename_i hall
    injection h with h
    refine ⟨h.symm, ?_⟩
    intro p hp helig
    rw [List.all_eq_true] at hall
    exact hall p (List.mem_filter.mpr ⟨hp, helig⟩)
  · cases h

theorem readCurrentMap_ok_intro (cfg : Config) (dirs : List (String × List String))
    (es : List (String × List String))
    (h : ∀ p ∈ es, currentEntryEligible cfg dirs p.1 p.2 = true →
      wellShapedBits p.1 p.2 = true) :
    readCurrentMap cfg dirs es = .ok
      ((es.filter (fun p => currentEntryEligible cfg dirs p.1 p.2)).map
        (fun p => (p.1, bitsDate p.2))) := by
  unfold readCurrentMap
  rw [if_pos]
  rw [List.all_eq_true]
  intro p hp
  exact h p (List.mem_filter.mp hp).1 (List.mem_filter.mp hp).2

theorem alookup_extract (cfg : Config) (dirs : List (String × List String))
    (es : List (String × List String)) (n : String)
    (hnd : (es.map Prod.fst).Nodup) :
    alookup ((es.filter (fun p => currentEntryEligible cfg dirs p.1 p.2)).map
        (fun p => (p.1, bitsDate p.2))) n =
      (alookup es n).bind (fun bits =>
        if currentEntryEligible cfg dirs n bits = true then some (bitsDate bits)
        else none) := by
  rw [alookup_map_value, alookup_filter _ _ _ hnd]
  cases h : alookup es n with
  | none => rfl
  | some bits =>
    by_cases helig : currentEntryEligible cfg dirs n bits = true
    · simp [helig]
    · simp [helig]

theorem nodup_keys_extract (cfg : Config) (dirs : List (String × List String))
    (es : List (String × List String)) (hnd : (es.map Prod.fst).Nodup) :
    (((es.filter (fun p => currentEntryEligible cfg dirs p.1 p.2)).map
        (fun p => (p.1, bitsDate p.2))).map Prod.fst).Nodup := by
  have h1 : ((es.filter (fun p => currentEntryEligible cfg dirs p.1 p.2)).map
      (fun p => (p.1, bitsDate p.2))).map Prod.fst =
      (es.filter (fun p => currentEntryEligible cfg dirs p.1 p.2)).map Prod.fst := by
    rw [List.map_map]
    rfl
  rw [h1]
  exact (List.Sublist.map Prod.fst (List.filter_sublist es)).nodup hnd

theorem mem_publishedImagesIn (cfg : Config) (dirs : List (String × List String))
    (d : String) (n : String) :
    n ∈ publishedImagesIn cfg dirs d ↔
      n ∈ listingOf dirs d ∧
      (manifestExtAllowed n && imageNameMatches cfg n) = true := by
  unfold publishedImagesIn
  exact List.mem_filter

theorem imageMatches_congr_base (cfg : Config) (arches : List String)
    {n m : String} (h : baseOf n = baseOf m) :
    imageMatches cfg arches n = imageMatches cfg arches m := by
  unfold imageMatches
  rw [h]

theorem nodup_publishedImagesIn (s : TreeState) (hwf : WellFormedTree s)
    (cfg : Config) (d : String) : (publishedImagesIn cfg s.dirs d).Nodup :=
  (List.filter_sublist _).nodup (listingOf_nodup s hwf d)

theorem alookup_linkAll_some (dirs : List (String × List String))
    (post : List (String × String)) (used : List String)
    (cur : List (String × List String)) (n : String) (b : List String)
    (hcw : ConsistentWrites dirs post used)
    (hwt : writeTarget dirs post used n = some b) :
    alookup (linkAll dirs post used cur) n = some b := by
  rw [alookup_linkAll dirs post used cur n hcw, hwt]

theorem alookup_linkAll_none (dirs : List (String × List String))
    (post : List (String × String)) (used : List String)
    (cur : List (String × List String)) (n : String)
    (hcw : ConsistentWrites dirs post used)
    (hwt : writeTarget dirs post used n = none) :
    alookup (linkAll dirs post used cur) n = alookup cur n := by
  rw [alookup_linkAll dirs post used cur n hcw, hwt]

theorem wellShaped_decomp {n : String} {bits : List String}
    (h : wellShapedBits n bits = true) : bits = [pardir, bitsDate bits, n] := by
  match bits with
  | [] => cases h
  | [a] => cases h
  | [a, b] => cases h
  | [a, b, c] =>
    unfold wellShapedBits at h
    rw [Bool.and_eq_true] at h
    have ha : a = pardir := by simpa using h.1
    have hc : c = n := by simpa using h.2
    rw [ha, hc]
    rfl
  | a :: b :: c :: d :: t => cases h

theorem wellShaped_of_form (n d : String) : wellShapedBits n [pardir, d, n] = true := by
  unfold wellShapedBits
  simp

theorem currentEntryEligible_false_of (cfg : Config)
    (dirs : List (String × List String)) (n : String) (bits : List String)
    (h : ¬ (manifestExtAllowed n && imageNameMatches cfg n) = true) :
    currentEntryEligible cfg dirs n bits = false := by
  unfold currentEntryEligible
  cases ha : manifestExtAllowed n with
  | false => rfl
  | true =>
    cases hc : imageNameMatches cfg n with
    | false => simp
    | true => exact absurd (by rw [ha, hc]; rfl) h

theorem currentEntryEligible_resolved (cfg : Config)
    (dirs : List (String × List String)) (n d : String)
    (hres : n ∈ listingOf dirs d) :
    currentEntryEligible cfg dirs n [pardir, d, n] =
      (manifestExtAllowed n && imageNameMatches cfg n) := by
  unfold currentEntryEligible
  have h1 : resolvesToFile dirs [pardir, d, n] = true := by
    unfold resolvesToFile
    simp [hres]
  rw [h1]
  cases manifestExtAllowed n <;> cases imageNameMatches cfg n <;> rfl

theorem bitsDate_form (d n : String) : bitsDate [pardir, d, n] = d := rfl

/-- After a mixed-branch `mark_current` that started from a mixed directory,
    every eligible entry of the rewritten directory is well-shaped and the map
    read back from it agrees pointwise with the post-update map. -/
theorem relink_dir_case (cfg : Config) (s : TreeState) (date : String)
    (arches : List String) (es : List (String × List String))
    (pre post : List (String × String)) (changed : List String)
    (E : List (String × List String))
    (hwf : WellFormedTree s) (hcur : s.current = .dir es)
    (hpre : readCurrentMap cfg s.dirs es = .ok pre)
    (hpost : post = applyUpdate cfg arches date (publishedImagesIn cfg s.dirs date) pre)
    (hchanged : changed = changedOf cfg arches (publishedImagesIn cfg s.dirs date))
    (hE : E = linkAll s.dirs post changed es) :
    ConsistentWrites s.dirs post changed ∧
    ((E.map Prod.fst).Nodup) ∧
    (∀ p ∈ E, currentEntryEligible cfg s.dirs p.1 p.2 = true →
      wellShapedBits p.1 p.2 = true) ∧
    (∀ n, alookup ((E.filter (fun p => currentEntryEligible cfg s.dirs p.1 p.2)).map
        (fun p => (p.1, bitsDate p.2))) n = alookup post n) := by
  obtain ⟨hpre_eq, hshapes⟩ := readCurrentMap_ok_elim hpre
  have hnd_es : (es.map Prod.fst).Nodup := hwf.2.2.1 es hcur
  have hcw : ConsistentWrites s.dirs post changed := by
    intro i hi j hj n _ _ _ _
    rw [hchanged] at hi hj
    rw [hpost, alookup_applyUpdate_of_changed _ _ _ _ _ _ hi,
      alookup_applyUpdate_of_changed _ _ _ _ _ _ hj]
  have hndE : (E.map Prod.fst).Nodup := by
    rw [hE]
    exact nodup_keys_linkAll _ _ _ _ hnd_es
  have hpre_char : ∀ n, alookup pre n = (alookup es n).bind (fun bits =>
      if currentEntryEligible cfg s.dirs n bits = true then some (bitsDate bits)
      else none) := by
    intro n
    rw [hpre_eq]
    exact alookup_extract cfg s.dirs es n hnd_es
  refine ⟨hcw, hndE, ?_, ?_⟩
  · intro p hp helig
    rw [hE] at hp
    rcases mem_linkAll _ _ _ _ _ hp with h1 | ⟨d, hsh, hmem⟩
    · exact hshapes p h1 helig
    · rw [hsh]
      exact wellShaped_of_form p.1 d
  · intro n
    rw [alookup_extract _ _ _ _ hndE]
    cases hwt : writeTarget s.dirs post changed n with
    | some b =>
      obtain ⟨img, himg, hbase, hmemb, hb⟩ := writeTarget_eq_some _ _ _ _ _ hwt
      have hpostimg : alookup post img = some date := by
        rw [hpost]
        exact alookup_applyUpdate_of_changed _ _ _ _ _ _ (hchanged ▸ himg)
      rw [hpostimg] at hmemb hb
      simp only [Option.getD_some] at hmemb hb
      have hlk : alookup E n = some b := by
        rw [hE]
        exact alookup_linkAll_some _ _ _ _ _ _ hcw hwt
      rw [hlk, hb, Option.some_bind, currentEntryEligible_resolved cfg s.dirs n date hmemb,
        bitsDate_form]
      by_cases hext : (manifestExtAllowed n && imageNameMatches cfg n) = true
      · rw [if_pos hext]
        have hchn : n ∈ changed := by
          rw [hchanged]
          rw [mem_changedOf]
          constructor
          · exact (mem_publishedImagesIn cfg s.dirs date n).mpr ⟨hmemb, hext⟩
          · rw [imageMatches_congr_base cfg arches hbase]
            exact ((mem_changedOf cfg arches _ img).mp (hchanged ▸ himg)).2
        rw [hpost, alookup_applyUpdate_of_changed _ _ _ _ _ _ (hchanged ▸ hchn)]
      · rw [if_neg hext]
        rw [hpost, alookup_applyUpdate]
        rw [if_neg]
        · rw [hpre_char]
          cases hes : alookup es n with
          | none => rfl
          | some bits2 =>
            rw [Option.some_bind,
              if_neg (by rw [currentEntryEligible_false_of cfg s.dirs n bits2 hext]; simp)]
        · rintro ⟨-, hav⟩
          exact hext ((mem_publishedImagesIn cfg s.dirs date n).mp hav).2
    | none =>
      have hnotchanged : n ∉ changedOf cfg arches (publishedImagesIn cfg s.dirs date) := by
        intro hn
        have hpostn : alookup post n = some date := by
          rw [hpost]
          exact alookup_applyUpdate_of_changed _ _ _ _ _ _ hn
        apply writeTarget_eq_none _ _ _ _ hwt n (hchanged ▸ hn)
        refine ⟨rfl, ?_⟩
        rw [hpostn]
        simp only [Option.getD_some]
        exact ((mem_publishedImagesIn cfg s.dirs date n).mp
          ((mem_changedOf cfg arches _ n).mp hn).1).1
      have hlk : alookup E n = alookup es n := by
        rw [hE]
        exact alookup_linkAll_none _ _ _ _ _ hcw hwt
      rw [hlk]
      have hpostn : alookup post n = alookup pre n := by
        rw [hpost, alookup_applyUpdate, if_neg]
        rintro ⟨hm, hav⟩
        exact hnotchanged ((mem_changedOf cfg arches _ n).mpr ⟨hav, hm⟩)
      rw [hpostn, hpre_char]

/-- After a mixed-branch `mark_current` that created a fresh mixed directory
    (previous "current" a pure symlink or absent): under basename consistency
    of the post-update map, every eligible entry of the new directory is
    well-shaped and the map read back agrees pointwise with `post`. -/
theorem relink_fresh_case (cfg : Config) (s : TreeState) (date : String)
    (arches : List String) (pre post : List (String × String))
    (E : List (String × List String))
    (hwf : WellFormedTree s)
    (hpre_or : (∃ t, pre = (publishedImagesIn cfg s.dirs t).map (fun e => (e, t))) ∨
      pre = [])
    (hpost : post = applyUpdate cfg arches date (publishedImagesIn cfg s.dirs date) pre)
    (hbc : BaseConsistent post)
    (hE : E = linkAll s.dirs post (post.map Prod.fst) []) :
    ConsistentWrites s.dirs post (post.map Prod.fst) ∧
    ((E.map Prod.fst).Nodup) ∧
    (∀ p ∈ E, currentEntryEligible cfg s.dirs p.1 p.2 = true →
      wellShapedBits p.1 p.2 = true) ∧
    (∀ n, alookup ((E.filter (fun p => currentEntryEligible cfg s.dirs p.1 p.2)).map
        (fun p => (p.1, bitsDate p.2))) n = alookup post n) := by
  have hcw : ConsistentWrites s.dirs post (post.map Prod.fst) := by
    intro i hi j hj n hbi hbj _ _
    obtain ⟨vi, hvi⟩ := Option.isSome_iff_exists.mp ((alookup_isSome_iff post i).mpr hi)
    obtain ⟨vj, hvj⟩ := Option.isSome_iff_exists.mp ((alookup_isSome_iff post j).mpr hj)
    have hv := hbc (i, vi) (mem_of_alookup_eq_some hvi) (j, vj)
      (mem_of_alookup_eq_some hvj) (hbi.symm.trans hbj)
    rw [hvi, hvj]
    exact congrArg (fun o => Option.getD (some o) "") hv
  have hndE : (E.map Prod.fst).Nodup := by
    rw [hE]
    exact nodup_keys_linkAll _ _ _ _ (by simp)
  -- the `pre` lookup in both allowed shapes
  have hpre_char : ∀ n, alookup pre n = none ∨
      ∃ t, alookup pre n = (if n ∈ publishedImagesIn cfg s.dirs t then some t else none) ∧
        pre = (publishedImagesIn cfg s.dirs t).map (fun e => (e, t)) := by
    intro n
    rcases hpre_or with ⟨t, ht⟩ | ht
    · right
      exact ⟨t, by rw [ht, alookup_map_const], ht⟩
    · left
      rw [ht, alookup_nil]
  refine ⟨hcw, hndE, ?_, ?_⟩
  · intro p hp helig
    rw [hE] at hp
    rcases mem_linkAll _ _ _ _ _ hp with h1 | ⟨d, hsh, hmem⟩
    · cases h1
    · rw [hsh]
      exact wellShaped_of_form p.1 d
  · intro n
    rw [alookup_extract _ _ _ _ hndE]
    cases hwt : writeTarget s.dirs post (post.map Prod.fst) n with
    | some b =>
      obtain ⟨img, himg, hbase, hmemb, hb⟩ := writeTarget_eq_some _ _ _ _ _ hwt
      obtain ⟨D, hD⟩ := Option.isSome_iff_exists.mp ((alookup_isSome_iff post img).mpr himg)
      rw [hD] at hmemb hb
      simp only [Option.getD_some] at hmemb hb
      have hlk : alookup E n = some b := by
        rw [hE]
        exact alookup_linkAll_some _ _ _ _ _ _ hcw hwt
      rw [hlk, hb, Option.some_bind,
        currentEntryEligible_resolved cfg s.dirs n D hmemb, bitsDate_form]
      by_cases hext : (manifestExtAllowed n && imageNameMatches cfg n) = true
      · rw [if_pos hext]
        -- show post maps n to D
        by_cases hcond : imageMatches cfg arches n = true ∧
            n ∈ publishedImagesIn cfg s.dirs date
        · have hpn : alookup post n = some date := by
            rw [hpost, alookup_applyUpdate, if_pos hcond]
          have hDdate : D = date :=
            hbc (img, D) (mem_of_alookup_eq_some hD) (n, date)
              (mem_of_alookup_eq_some hpn) hbase.symm
          rw [hpn, hDdate]
        · rw [hpost, alookup_applyUpdate, if_neg hcond]
          -- n is unchanged: its pre entry must carry D
          have hDimg := alookup_applyUpdate cfg arches date
            (publishedImagesIn cfg s.dirs date) pre img
          rw [hpost] at hD
          rw [hD] at hDimg
          by_cases hcimg : imageMatches cfg arches img = true ∧
              img ∈ publishedImagesIn cfg s.dirs date
          · exfalso
            rw [if_pos hcimg] at hDimg
            injection hDimg with hDdate
            apply hcond
            constructor
            · rw [imageMatches_congr_base cfg arches hbase]
              exact hcimg.1
            · refine (mem_publishedImagesIn cfg s.dirs date n).mpr ⟨?_, hext⟩
              rw [hDdate] at hmemb
              exact hmemb
          · rw [if_neg hcimg] at hDimg
            -- pre img = some D, so pre is the published(t) map with t = D
            rcases hpre_char img with hchar | ⟨t, hchar, hform⟩
            · rw [hchar] at hDimg; cases hDimg
            · rw [hchar] at hDimg
              by_cases hmempub : img ∈ publishedImagesIn cfg s.dirs t
              · rw [if_pos hmempub] at hDimg
                injection hDimg with hDt
                subst hDt
                rw [hform, alookup_map_const, if_pos]
                exact (mem_publishedImagesIn cfg s.dirs D n).mpr ⟨hmemb, hext⟩
              · rw [if_neg hmempub] at hDimg; cases hDimg
      · rw [if_neg hext]
        rw [hpost, alookup_applyUpdate, if_neg]
        · rcases hpre_char n with hchar | ⟨t, hchar, -⟩
          · rw [hchar]
          · rw [hchar, if_neg]
            intro hmempub
            exact hext ((mem_publishedImagesIn cfg s.dirs t n).mp hmempub).2
        · rintro ⟨-, hav⟩
          exact hext ((mem_publishedImagesIn cfg s.dirs date n).mp hav).2
    | none =>
      have hlk : alookup E n = none := by
        rw [hE, alookup_linkAll_none _ _ _ _ _ hcw hwt, alookup_nil]
      rw [hlk, Option.none_bind]
      cases hpn : alookup post n with
      | none => rfl
      | some v =>
        exfalso
        have hkey : n ∈ post.map Prod.fst :=
          (alookup_isSome_iff post n).mp (by rw [hpn]; rfl)
        apply writeTarget_eq_none _ _ _ _ hwt n hkey
        refine ⟨rfl, ?_⟩
        rw [hpn]
        simp only [Option.getD_some]
        -- n is listed under its own mapped date v
        have hpn2 := alookup_applyUpdate cfg arches date
          (publishedImagesIn cfg s.dirs date) pre n
        rw [hpost] at hpn
        rw [hpn] at hpn2
        by_cases hcond : imageMatches cfg arches n = true ∧
            n ∈ publishedImagesIn cfg s.dirs date
        · rw [if_pos hcond] at hpn2
          injection hpn2 with hv
          rw [hv]
          exact ((mem_publishedImagesIn cfg s.dirs date n).mp hcond.2).1
        · rw [if_neg hcond] at hpn2
          rcases hpre_char n with hchar | ⟨t, hchar, -⟩
          · rw [hchar] at hpn2; cases hpn2
          · rw [hchar] at hpn2
            by_cases hmempub : n ∈ publishedImagesIn cfg s.dirs t
            · rw [if_pos hmempub] at hpn2
              injection hpn2 with hv
              rw [hv]
              exact ((mem_publishedImagesIn cfg s.dirs t n).mp hmempub).1
            · rw [if_neg hmempub] at hpn2; cases hpn2

/-! ### Assembling a full `mark_current` run -/

theorem except_bind_ok {ε α β : Type} (a : α) (f : α → Except ε β) :
    (Except.ok a >>= f) = f a := rfl

theorem keys_map_const {α : Type} (l : List String) (c : α) :
    ((l.map (fun e => (e, c))).map Prod.fst) = l := by
  rw [List.map_map]
  exact List.map_id'' (fun _ => rfl) l

theorem mem_goodList_iff {date : String} {post : List (String × String)}
    (hnd : (post.map Prod.fst).Nodup) (e : String) :
    e ∈ goodList date post ↔ alookup post e = some date := by
  unfold goodList
  constructor
  · intro h
    rcases List.mem_map.mp h with ⟨p, hp, hpe⟩
    have hmem := List.mem_filter.mp hp
    have hval : p.2 = date := by simpa using hmem.2
    rw [← hpe, ← hval]
    exact alookup_eq_some_of_mem hnd hmem.1
  · intro h
    refine List.mem_map.mpr ⟨(e, date), List.mem_filter.mpr ⟨mem_of_alookup_eq_some h, by simp⟩, rfl⟩

theorem pureCond_true_elim {avail : List String} {date : String}
    {post : List (String × String)} (h : pureCond avail date post = true) :
    (∀ x ∈ post.map Prod.fst, x ∈ avail) ∧ (∀ x ∈ avail, x ∈ post.map Prod.fst) ∧
    (∀ v ∈ post.map Prod.snd, v = date) ∧ date ∈ post.map Prod.snd := by
  unfold pureCond at h
  rw [Bool.and_eq_true, eqAsSets_true_iff, eqAsSets_true_iff] at h
  refine ⟨h.1.1, h.1.2, ?_, h.2.2 date (by simp)⟩
  intro v hv
  simpa using h.2.1 v hv

theorem updMarkedGood_twice (mg : List (String × List String)) (date : String)
    (good1 good2 : List String)
    (hnd : (mg.map Prod.fst).Nodup)
    (hnt : NTLines ((alookup mg date).getD [""]))
    (hsub : ∀ e ∈ good2, e ∈ good1) :
    updMarkedGood (updMarkedGood mg date good1) date good2 =
      updMarkedGood mg date good1 := by
  unfold updMarkedGood
  have hl1 : alookup (insertAssoc mg date
      (appendMarkedLines ((alookup mg date).getD [""]) good1)) date =
      some (appendMarkedLines ((alookup mg date).getD [""]) good1) := by
    rw [alookup_insertAssoc, if_pos rfl]
  rw [hl1]
  simp only [Option.getD_some]
  have hmem : ∀ e ∈ good2,
      e ∈ appendMarkedLines ((alookup mg date).getD [""]) good1 :=
    fun e he => mem_appendMarkedLines _ good1 hnt e (hsub e he)
  rw [appendMarkedLines_id _ _ hmem]
  exact insertAssoc_self (nodup_keys_insertAssoc _ _ hnd) (mem_of_alookup_eq_some hl1)

theorem nodup_pre (cfg : Config) (s : TreeState) (pre : List (String × String))
    (hwf : WellFormedTree s) (h : existingPre cfg s = .ok pre) :
    (pre.map Prod.fst).Nodup := by
  unfold existingPre at h
  split at h
  · rename_i t heq
    injection h with h
    by_cases hsl : t.data.contains sepChar = true
    · rw [if_pos hsl] at h
      rw [← h]
      simp
    · rw [if_neg hsl] at h
      rw [← h, keys_map_const]
      exact nodup_publishedImagesIn s hwf cfg t
  · rename_i es heq
    obtain ⟨hpre_eq, -⟩ := readCurrentMap_ok_elim h
    rw [hpre_eq]
    exact nodup_keys_extract cfg s.dirs es (hwf.2.2.1 es heq)
  · injection h with h
    rw [← h]
    simp

theorem nodup_post (cfg : Config) (s : TreeState) (date : String)
    (arches : List String) (pre : List (String × String))
    (hwf : WellFormedTree s) (h : existingPre cfg s = .ok pre) :
    ((applyUpdate cfg arches date (publishedImagesIn cfg s.dirs date) pre).map
      Prod.fst).Nodup :=
  nodup_keys_applyUpdate cfg arches date _ pre (nodup_pre cfg s pre hwf h)

theorem writeTarget_of_changed (dirs : List (String × List String))
    (post : List (String × String)) (used : List String) (date : String)
    (img e : String)
    (himg : img ∈ used) (hcwU : ConsistentWrites dirs post used)
    (hpostimg : alookup post img = some date)
    (he : e ∈ listingOf dirs date) (hbase : baseOf e = baseOf img) :
    writeTarget dirs post used e = some [pardir, date, e] := by
  have hmemd : e ∈ listingOf dirs ((alookup post img).getD "") := by
    rw [hpostimg]; exact he
  cases hwt : writeTarget dirs post used e with
  | none =>
    exact absurd ⟨hbase, hmemd⟩ (writeTarget_eq_none _ _ _ _ hwt img himg)
  | some b =>
    obtain ⟨j, hj, hbj, hmj, hb⟩ := writeTarget_eq_some _ _ _ _ _ hwt
    have hd := hcwU j hj img himg e hbj hbase hmj hmemd
    rw [hpostimg] at hd
    simp only [Option.getD_some] at hd
    rw [hb, hd]

/-- Re-running `mark_current` after a pure-branch run reproduces the same
    output. -/
theorem mark_current_idem_pure (cfg : Config) (s : TreeState) (cds : List String)
    (date : String) (arches : List String) (pre : List (String × String))
    (hwf : WellFormedTree s)
    (hslash : date.data.contains sepChar = false)
    (hnt : NTLines ((alookup s.markedGood date).getD [""]))
    (hndpost : ((applyUpdate cfg arches date (publishedImagesIn cfg s.dirs date)
      pre).map Prod.fst).Nodup)
    (hpure : pureCond (publishedImagesIn cfg s.dirs date) date
      (applyUpdate cfg arches date (publishedImagesIn cfg s.dirs date) pre) = true) :
    markCurrent cfg
      { s with
        current := CurrentState.link date
        markedGood := updMarkedGood s.markedGood date
          (goodList date (applyUpdate cfg arches date
            (publishedImagesIn cfg s.dirs date) pre)) }
      cds date arches =
    .ok ⟨{ s with
        current := CurrentState.link date
        markedGood := updMarkedGood s.markedGood date
          (goodList date (applyUpdate cfg arches date
            (publishedImagesIn cfg s.dirs date) pre)) },
      cds, false⟩ := by
  obtain ⟨hk1, hk2, hv1, hv2⟩ := pureCond_true_elim hpure
  have hpre2 : existingPre cfg
      { s with
        current := CurrentState.link date
        markedGood := updMarkedGood s.markedGood date
          (goodList date (applyUpdate cfg arches date
            (publishedImagesIn cfg s.dirs date) pre)) } =
      .ok ((publishedImagesIn cfg s.dirs date).map (fun e => (e, date))) := by
    simp only [existingPre, hslash]
    rfl
  have hpost2look : ∀ n,
      alookup (applyUpdate cfg arches date (publishedImagesIn cfg s.dirs date)
        ((publishedImagesIn cfg s.dirs date).map (fun e => (e, date)))) n =
      if n ∈ publishedImagesIn cfg s.dirs date then some date else none := by
    intro n
    rw [alookup_applyUpdate, alookup_map_const]
    by_cases hn : n ∈ publishedImagesIn cfg s.dirs date
    · by_cases hm : imageMatches cfg arches n = true
      · rw [if_pos ⟨hm, hn⟩, if_pos hn]
      · rw [if_neg (fun hc => hm hc.1)]
    · rw [if_neg (fun hc => hn hc.2)]
  have hndpre2 : (((publishedImagesIn cfg s.dirs date).map
      (fun e => (e, date))).map Prod.fst).Nodup := by
    rw [keys_map_const]
    exact nodup_publishedImagesIn s hwf cfg date
  have hndpost2 := nodup_keys_applyUpdate cfg arches date
    (publishedImagesIn cfg s.dirs date) _ hndpre2
  rcases List.mem_map.mp hv2 with ⟨p0, hp0, hp0d⟩
  have ha0 : p0.1 ∈ publishedImagesIn cfg s.dirs date :=
    hk1 p0.1 (List.mem_map.mpr ⟨p0, hp0, rfl⟩)
  have hpure2 : pureCond (publishedImagesIn cfg s.dirs date) date
      (applyUpdate cfg arches date (publishedImagesIn cfg s.dirs date)
        ((publishedImagesIn cfg s.dirs date).map (fun e => (e, date)))) = true := by
    unfold pureCond
    rw [Bool.and_eq_true, eqAsSets_true_iff, eqAsSets_true_iff]
    have hkey2 : ∀ n, n ∈ (applyUpdate cfg arches date
        (publishedImagesIn cfg s.dirs date)
        ((publishedImagesIn cfg s.dirs date).map (fun e => (e, date)))).map Prod.fst ↔
        n ∈ publishedImagesIn cfg s.dirs date := by
      intro n
      rw [← alookup_isSome_iff, hpost2look n]
      by_cases hn : n ∈ publishedImagesIn cfg s.dirs date <;> simp [hn]
    refine ⟨⟨fun x hx => (hkey2 x).mp hx, fun x hx => (hkey2 x).mpr hx⟩, ?_, ?_⟩
    · intro v hv
      rcases (mem_vals_iff hndpost2 v).mp hv with ⟨k, hkv⟩
      rw [hpost2look k] at hkv
      by_cases hk : k ∈ publishedImagesIn cfg s.dirs date
      · rw [if_pos hk] at hkv
        injection hkv with hkv
        simp [hkv]
      · rw [if_neg hk] at hkv; cases hkv
    · intro v hv
      have hvd : v = date := by simpa using hv
      subst hvd
      refine (mem_vals_iff hndpost2 v).mpr ⟨p0.1, ?_⟩
      rw [hpost2look, if_pos ha0]
  have hsub : ∀ e ∈ goodList date (applyUpdate cfg arches date
      (publishedImagesIn cfg s.dirs date)
      ((publishedImagesIn cfg s.dirs date).map (fun e => (e, date)))),
      e ∈ goodList date (applyUpdate cfg arches date
        (publishedImagesIn cfg s.dirs date) pre) := by
    intro e he
    rw [mem_goodList_iff hndpost2, hpost2look] at he
    rw [mem_goodList_iff hndpost]
    by_cases hk : e ∈ publishedImagesIn cfg s.dirs date
    · obtain ⟨v, hv⟩ := Option.isSome_iff_exists.mp
        ((alookup_isSome_iff _ e).mpr (hk2 e hk))
      have hvd : v = date := hv1 v ((mem_vals_iff hndpost v).mpr ⟨e, hv⟩)
      rw [hv, hvd]
    · rw [if_neg hk] at he; cases he
  have hMG := updMarkedGood_twice s.markedGood date _ _ hwf.2.2.2 hnt hsub
  simp only [markCurrent, hpre2, except_bind_ok]
  rw [if_pos hpure2, hMG]

/-- Re-running `mark_current` after a mixed-branch run reproduces the same
    output, given the read-back characterization of the rewritten mixed
    directory. -/
theorem mark_current_idem_mixed (cfg : Config) (s : TreeState) (cds : List String)
    (date : String) (arches : List String) (pre : List (String × String))
    (start : List (String × List String)) (used : List String)
    (hwf : WellFormedTree s)
    (hnt : NTLines ((alookup s.markedGood date).getD [""]))
    (hndpost : ((applyUpdate cfg arches date (publishedImagesIn cfg s.dirs date)
      pre).map Prod.fst).Nodup)
    (hndE : ((linkAll s.dirs
        (applyUpdate cfg arches date (publishedImagesIn cfg s.dirs date) pre)
        used start).map Prod.fst).Nodup)
    (hsubuse : ∀ i ∈ changedOf cfg arches (publishedImagesIn cfg s.dirs date),
      i ∈ used)
    (hcwU : ConsistentWrites s.dirs
      (applyUpdate cfg arches date (publishedImagesIn cfg s.dirs date) pre) used)
    (hshape2 : ∀ p ∈ linkAll s.dirs
        (applyUpdate cfg arches date (publishedImagesIn cfg s.dirs date) pre)
        used start,
      currentEntryEligible cfg s.dirs p.1 p.2 = true →
      wellShapedBits p.1 p.2 = true)
    (hchar : ∀ n, alookup (((linkAll s.dirs
        (applyUpdate cfg arches date (publishedImagesIn cfg s.dirs date) pre)
        used start).filter (fun p => currentEntryEligible cfg s.dirs p.1 p.2)).map
          (fun p => (p.1, bitsDate p.2))) n =
      alookup (applyUpdate cfg arches date (publishedImagesIn cfg s.dirs date) pre) n)
    (hpure : pureCond (publishedImagesIn cfg s.dirs date) date
      (applyUpdate cfg arches date (publishedImagesIn cfg s.dirs date) pre) = false) :
    markCurrent cfg
      { s with
        current := CurrentState.dir (linkAll s.dirs
          (applyUpdate cfg arches date (publishedImagesIn cfg s.dirs date) pre)
          used start)
        markedGood := updMarkedGood s.markedGood date
          (goodList date (applyUpdate cfg arches date
            (publishedImagesIn cfg s.dirs date) pre)) }
      (addCds cds (applyUpdate cfg arches date
        (publishedImagesIn cfg s.dirs date) pre))
      date arches =
    .ok ⟨{ s with
        current := CurrentState.dir (linkAll s.dirs
          (applyUpdate cfg arches date (publishedImagesIn cfg s.dirs date) pre)
          used start)
        markedGood := updMarkedGood s.markedGood date
          (goodList date (applyUpdate cfg arches date
            (publishedImagesIn cfg s.dirs date) pre)) },
      addCds cds (applyUpdate cfg arches date
        (publishedImagesIn cfg s.dirs date) pre),
      true⟩ := by
  have hpre2 : existingPre cfg
      { s with
        current := CurrentState.dir (linkAll s.dirs
          (applyUpdate cfg arches date (publishedImagesIn cfg s.dirs date) pre)
          used start)
        markedGood := updMarkedGood s.markedGood date
          (goodList date (applyUpdate cfg arches date
            (publishedImagesIn cfg s.dirs date) pre)) } =
      .ok (((linkAll s.dirs
        (applyUpdate cfg arches date (publishedImagesIn cfg s.dirs date) pre)
        used start).filter (fun p => currentEntryEligible cfg s.dirs p.1 p.2)).map
          (fun p => (p.1, bitsDate p.2))) := by
    simp only [existingPre]
    exact readCurrentMap_ok_intro cfg s.dirs _ hshape2
  have hndpre2 := nodup_keys_extract cfg s.dirs _ hndE
  have hndpost2 := nodup_keys_applyUpdate cfg arches date
    (publishedImagesIn cfg s.dirs date) _ hndpre2
  have hpost2look : ∀ n, alookup (applyUpdate cfg arches date
      (publishedImagesIn cfg s.dirs date)
      (((linkAll s.dirs
        (applyUpdate cfg arches date (publishedImagesIn cfg s.dirs date) pre)
        used start).filter (fun p => currentEntryEligible cfg s.dirs p.1 p.2)).map
          (fun p => (p.1, bitsDate p.2)))) n =
      alookup (applyUpdate cfg arches date
        (publishedImagesIn cfg s.dirs date) pre) n := by
    intro n
    rw [alookup_applyUpdate]
    by_cases hc : imageMatches cfg arches n = true ∧
        n ∈ publishedImagesIn cfg s.dirs date
    · rw [if_pos hc]
      exact (alookup_applyUpdate_of_changed cfg arches date _ pre n
        ((mem_changedOf cfg arches _ n).mpr ⟨hc.2, hc.1⟩)).symm
    · rw [if_neg hc]
      rw [hchar n, alookup_applyUpdate, if_neg hc]
  have hpure2 : pureCond (publishedImagesIn cfg s.dirs date) date
      (applyUpdate cfg arches date (publishedImagesIn cfg s.dirs date)
        (((linkAll s.dirs
          (applyUpdate cfg arches date (publishedImagesIn cfg s.dirs date) pre)
          used start).filter (fun p => currentEntryEligible cfg s.dirs p.1 p.2)).map
            (fun p => (p.1, bitsDate p.2)))) = false := by
    rw [pureCond_congr _ date _ _ hpost2look hndpost2 hndpost, hpure]
  have hE2 : linkAll s.dirs (applyUpdate cfg arches date
      (publishedImagesIn cfg s.dirs date)
      (((linkAll s.dirs
        (applyUpdate cfg arches date (publishedImagesIn cfg s.dirs date) pre)
        used start).filter (fun p => currentEntryEligible cfg s.dirs p.1 p.2)).map
          (fun p => (p.1, bitsDate p.2))))
      (changedOf cfg arches (publishedImagesIn cfg s.dirs date))
      (linkAll s.dirs
        (applyUpdate cfg arches date (publishedImagesIn cfg s.dirs date) pre)
        used start) =
      linkAll s.dirs
        (applyUpdate cfg arches date (publishedImagesIn cfg s.dirs date) pre)
        used start := by
    apply linkAll_id _ _ _ _ hndE
    intro img himg e he hbase
    have hp2img : alookup (applyUpdate cfg arches date
        (publishedImagesIn cfg s.dirs date)
        (((linkAll s.dirs
          (applyUpdate cfg arches date (publishedImagesIn cfg s.dirs date) pre)
          used start).filter (fun p => currentEntryEligible cfg s.dirs p.1 p.2)).map
            (fun p => (p.1, bitsDate p.2)))) img = some date :=
      alookup_applyUpdate_of_changed cfg arches date _ _ img himg
    rw [hp2img] at he ⊢
    simp only [Option.getD_some] at he ⊢
    have hpostimg : alookup (applyUpdate cfg arches date
        (publishedImagesIn cfg s.dirs date) pre) img = some date :=
      alookup_applyUpdate_of_changed cfg arches date _ pre img himg
    have hwt := writeTarget_of_changed s.dirs
      (applyUpdate cfg arches date (publishedImagesIn cfg s.dirs date) pre)
      used date img e (hsubuse img himg) hcwU hpostimg he hbase
    exact mem_of_alookup_eq_some (alookup_linkAll_some _ _ _ start _ _ hcwU hwt)
  have hcds : addCds (addCds cds (applyUpdate cfg arches date
      (publishedImagesIn cfg s.dirs date) pre))
      (applyUpdate cfg arches date (publishedImagesIn cfg s.dirs date)
        (((linkAll s.dirs
          (applyUpdate cfg arches date (publishedImagesIn cfg s.dirs date) pre)
          used start).filter (fun p => currentEntryEligible cfg s.dirs p.1 p.2)).map
            (fun p => (p.1, bitsDate p.2)))) =
      addCds cds (applyUpdate cfg arches date
        (publishedImagesIn cfg s.dirs date) pre) := by
    apply addCds_id
    intro p hp
    have hv : alookup (applyUpdate cfg arches date
        (publishedImagesIn cfg s.dirs date)
        (((linkAll s.dirs
          (applyUpdate cfg arches date (publishedImagesIn cfg s.dirs date) pre)
          used start).filter (fun p => currentEntryEligible cfg s.dirs p.1 p.2)).map
            (fun p => (p.1, bitsDate p.2)))) p.1 = some p.2 :=
      alookup_eq_some_of_mem hndpost2 hp
    rw [hpost2look] at hv
    exact mem_addCds (mem_of_alookup_eq_some hv)
  have hsub : ∀ e ∈ goodList date (applyUpdate cfg arches date
      (publishedImagesIn cfg s.dirs date)
      (((linkAll s.dirs
        (applyUpdate cfg arches date (publishedImagesIn cfg s.dirs date) pre)
        used start).filter (fun p => currentEntryEligible cfg s.dirs p.1 p.2)).map
          (fun p => (p.1, bitsDate p.2)))),
      e ∈ goodList date (applyUpdate cfg arches date
        (publishedImagesIn cfg s.dirs date) pre) := by
    intro e he
    rw [mem_goodList_iff hndpost2, hpost2look] at he
    exact (mem_goodList_iff hndpost e).mpr he
  have hMG := updMarkedGood_twice s.markedGood date _ _ hwf.2.2.2 hnt hsub
  simp only [markCurrent, hpre2, except_bind_ok]
  rw [if_neg (by simp [hpure2])]
  rw [hE2, hMG, hcds]

theorem except_bind_error {ε α β : Type} (e : ε) (f : α → Except ε β) :
    ((Except.error e : Except ε α) >>= f) = Except.error e := rfl

/-- C2: for every date and architecture set, on a well-formed tree where the
    date name carries no path separator, the generation's `.marked_good` file
    is newline-terminated (or absent) and the post-update current map is
    basename-consistent, a successful `mark_current` run is idempotent: the
    second run returns exactly the first run's tree, checksum-dirs list and
    polish flag. -/
theorem mark_current_idempotent (cfg : Config) (s : TreeState) (cds : List String)
    (date : String) (arches : List String) (out : MCOut)
    (hwf : WellFormedTree s)
    (hslash : date.data.contains sepChar = false)
    (hnt : NTLines ((alookup s.markedGood date).getD [""]))
    (hbc : ∀ m, markPost cfg s date arches = some m → BaseConsistent m)
    (h1 : markCurrent cfg s cds date arches = .ok out) :
    markCurrent cfg out.state out.cds date arches = .ok out := by
  cases hpreE : existingPre cfg s with
  | error e =>
    rw [markCurrent, hpreE, except_bind_error] at h1
    exact Except.noConfusion h1
  | ok pre =>
    have hmp : markPost cfg s date arches =
        some (applyUpdate cfg arches date (publishedImagesIn cfg s.dirs date) pre) := by
      simp only [markPost, hpreE]
    have hndpost := nodup_post cfg s date arches pre hwf hpreE
    simp only [markCurrent, hpreE, except_bind_ok] at h1
    split at h1
    · rename_i hpure
      injection h1 with h1
      subst h1
      exact mark_current_idem_pure cfg s cds date arches pre hwf hslash hnt hndpost hpure
    · rename_i hpure'
      have hpure : pureCond (publishedImagesIn cfg s.dirs date) date
          (applyUpdate cfg arches date (publishedImagesIn cfg s.dirs date) pre) =
          false := by simpa using hpure'
      cases hcs : s.current with
      | dir es =>
        rw [hcs] at h1
        simp only [existingPre, hcs] at hpreE
        obtain ⟨hcw, hndE, hshape2, hchar⟩ :=
          relink_dir_case cfg s date arches es pre _ _ _ hwf hcs hpreE rfl rfl rfl
        injection h1 with h1
        subst h1
        exact mark_current_idem_mixed cfg s cds date arches pre es
          (changedOf cfg arches (publishedImagesIn cfg s.dirs date))
          hwf hnt hndpost hndE (fun i hi => hi) hcw hshape2 hchar hpure
      | link t =>
        rw [hcs] at h1
        simp only [existingPre, hcs, Except.ok.injEq] at hpreE
        have hpre_or : (∃ u, pre =
            (publishedImagesIn cfg s.dirs u).map (fun e => (e, u))) ∨ pre = [] := by
          by_cases hsl : t.data.contains sepChar = true
          · right
            rw [← hpreE, if_pos hsl]
          · left
            exact ⟨t, by rw [← hpreE, if_neg hsl]⟩
        obtain ⟨hcw, hndE, hshape2, hchar⟩ :=
          relink_fresh_case cfg s date arches pre _ _ hwf hpre_or rfl (hbc _ hmp) rfl
        have hsubuse : ∀ i ∈ changedOf cfg arches (publishedImagesIn cfg s.dirs date),
            i ∈ (applyUpdate cfg arches date (publishedImagesIn cfg s.dirs date)
              pre).map Prod.fst := by
          intro i hi
          exact (alookup_isSome_iff _ i).mp
            (by rw [alookup_applyUpdate_of_changed cfg arches date _ pre i hi]; rfl)
        injection h1 with h1
        subst h1
        exact mark_current_idem_mixed cfg s cds date arches pre []
          ((applyUpdate cfg arches date (publishedImagesIn cfg s.dirs date) pre).map
            Prod.fst)
          hwf hnt hndpost hndE hsubuse hcw hshape2 hchar hpure
      | absent =>
        rw [hcs] at h1
        simp only [existingPre, hcs, Except.ok.injEq] at hpreE
        have hpre_or : (∃ u, pre =
            (publishedImagesIn cfg s.dirs u).map (fun e => (e, u))) ∨ pre = [] :=
          Or.inr hpreE.symm
        obtain ⟨hcw, hndE, hshape2, hchar⟩ :=
          relink_fresh_case cfg s date arches pre _ _ hwf hpre_or rfl (hbc _ hmp) rfl
        have hsubuse : ∀ i ∈ changedOf cfg arches (publishedImagesIn cfg s.dirs date),
            i ∈ (applyUpdate cfg arches date (publishedImagesIn cfg s.dirs date)
              pre).map Prod.fst := by
          intro i hi
          exact (alookup_isSome_iff _ i).mp
            (by rw [alookup_applyUpdate_of_changed cfg arches date _ pre i hi]; rfl)
        injection h1 with h1
        subst h1
        exact mark_current_idem_mixed cfg s cds date arches pre []
          ((applyUpdate cfg arches date (publishedImagesIn cfg s.dirs date) pre).map
            Prod.fst)
          hwf hnt hndpost hndE hsubuse hcw hshape2 hchar hpure

theorem mark_current_idempotent_witness :
    markCurrent cfgW sW [] "20130321" ["amd64"] = Except.ok mcW ∧
    markCurrent cfgW mcW.state mcW.cds "20130321" ["amd64"] = Except.ok mcW :=
  ⟨rfl,
   mark_current_idempotent cfgW sW [] "20130321" ["amd64"] mcW
     ⟨by decide, by decide, by intro es h; simp [sW] at h, by decide⟩
     (by decide)
     (Or.inr rfl)
     (fun m hm => by injection hm with hm; subst hm; decide)
     rfl⟩

theorem mark_current_idempotent_cex :
    (markCurrent cfgW sB [] "20130321" ["amd64"] = Except.ok mcB1 ∧
     markCurrent cfgW mcB1.state mcB1.cds "20130321" ["amd64"] = Except.ok mcB2 ∧
     mcB2.state ≠ mcB1.state) ∧
    (markCurrent cfgW sD [] "20130321" ["amd64"] = Except.ok mcD1 ∧
     markCurrent cfgW mcD1.state mcD1.cds "20130321" ["amd64"] = Except.ok mcD2 ∧
     mcD2.state ≠ mcD1.state) :=
  ⟨⟨rfl, rfl, by decide⟩, ⟨rfl, rfl, by decide⟩⟩

/-- C1: after a successful `mark_current` whose post-update map is
    basename-consistent, the "current" pointer collapses to the single
    symlink `date` exactly when the map's names are as a set the images
    published at `date` and every name maps to `date`; otherwise "current"
    is a directory whose eligible (published-image) entries read back as
    exactly the post-update map.  (The claim's stronger per-basename
    coverage of the mixed directory is refuted by the counterexample:
    stale entries for files that are no longer published images survive.) -/
theorem mark_current_pointer_form (cfg : Config) (s : TreeState) (cds : List String)
    (date : String) (arches : List String) (out : MCOut)
    (post : List (String × String))
    (hwf : WellFormedTree s)
    (hmp : markPost cfg s date arches = some post)
    (hbc : BaseConsistent post)
    (h1 : markCurrent cfg s cds date arches = .ok out) :
    (pureCond (publishedImagesIn cfg s.dirs date) date post = true →
      out.state.current = CurrentState.link date) ∧
    (pureCond (publishedImagesIn cfg s.dirs date) date post = false →
      ∃ E, out.state.current = CurrentState.dir E ∧
        ∀ n, alookup ((E.filter (fun p => currentEntryEligible cfg s.dirs p.1 p.2)).map
          (fun p => (p.1, bitsDate p.2))) n = alookup post n) := by
  cases hpreE : existingPre cfg s with
  | error e =>
    rw [markCurrent, hpreE, except_bind_error] at h1
    exact Except.noConfusion h1
  | ok pre =>
    simp only [markPost, hpreE, Option.some.injEq] at hmp
    subst hmp
    simp only [markCurrent, hpreE, except_bind_ok] at h1
    split at h1
    · rename_i hpure
      injection h1 with h1
      subst h1
      refine ⟨fun _ => rfl, fun hfalse => ?_⟩
      rw [hpure] at hfalse
      exact Bool.noConfusion hfalse
    · rename_i hpure'
      cases hcs : s.current with
      | dir es =>
        rw [hcs] at h1
        simp only [existingPre, hcs] at hpreE
        obtain ⟨-, -, -, hchar⟩ :=
          relink_dir_case cfg s date arches es pre _ _ _ hwf hcs hpreE rfl rfl rfl
        injection h1 with h1
        subst h1
        exact ⟨fun htrue => absurd htrue hpure', fun _ => ⟨_, rfl, hchar⟩⟩
      | link t =>
        rw [hcs] at h1
        simp only [existingPre, hcs, Except.ok.injEq] at hpreE
        have hpre_or : (∃ u, pre =
            (publishedImagesIn cfg s.dirs u).map (fun e => (e, u))) ∨ pre = [] := by
          by_cases hsl : t.data.contains sepChar = true
          · right
            rw [← hpreE, if_pos hsl]
          · left
            exact ⟨t, by rw [← hpreE, if_neg hsl]⟩
        obtain ⟨-, -, -, hchar⟩ :=
          relink_fresh_case cfg s date arches pre _ _ hwf hpre_or rfl hbc rfl
        injection h1 with h1
        subst h1
        exact ⟨fun htrue => absurd htrue hpure', fun _ => ⟨_, rfl, hchar⟩⟩
      | absent =>
        rw [hcs] at h1
        simp only [existingPre, hcs, Except.ok.injEq] at hpreE
        have hpre_or : (∃ u, pre =
            (publishedImagesIn cfg s.dirs u).map (fun e => (e, u))) ∨ pre = [] :=
          Or.inr hpreE.symm
        obtain ⟨-, -, -, hchar⟩ :=
          relink_fresh_case cfg s date arches pre _ _ hwf hpre_or rfl hbc rfl
        injection h1 with h1
        subst h1
        exact ⟨fun htrue => absurd htrue hpure', fun _ => ⟨_, rfl, hchar⟩⟩

theorem mark_current_pointer_form_witness :
    markCurrent cfgW sM [] "20130321" ["amd64"] = Except.ok mcM ∧
    ((pureCond (publishedImagesIn cfgW sM.dirs "20130321") "20130321" postM = true →
      mcM.state.current = CurrentState.link "20130321") ∧
     (pureCond (publishedImagesIn cfgW sM.dirs "20130321") "20130321" postM = false →
      ∃ E, mcM.state.current = CurrentState.dir E ∧
        ∀ n, alookup ((E.filter (fun p => currentEntryEligible cfgW sM.dirs p.1 p.2)).map
          (fun p => (p.1, bitsDate p.2))) n = alookup postM n)) :=
  ⟨rfl,
   mark_current_pointer_form cfgW sM [] "20130321" ["amd64"] mcM postM
     ⟨by decide, by decide, fun es h => by injection h with h; rw [← h]; decide, by decide⟩
     rfl (by decide) rfl⟩

theorem mark_current_pointer_form_cex :
    markCurrent cfgW sC [] "20130321" ["amd64"] = Except.ok mcC ∧
    markPost cfgW sC "20130321" ["amd64"] = some postC ∧
    pureCond (publishedImagesIn cfgW sC.dirs "20130321") "20130321" postC = false ∧
    mcC.state.current = CurrentState.dir mapC ∧
    ¬ specMixedForm sC.dirs postC mapC :=
  ⟨rfl, rfl, by decide, rfl, by decide⟩

end Cdimage
